import Mathlib

/-!
Verification of the reactive Node / layered-config core of config-kit.

The definitions below are a shallow embedding of the JavaScript sources:
  * `src/src/node.js` — the proxy-based reactive `Node` (structural hashes,
    set/delete traps, array mutators, pause/resume, watch/notify),
  * `src/src/config.js` — `Config.get` (reverse-precedence scan, interpolation,
    merging) and the pause/notify bracket,
  * `src/unnamed/part_007` (`util.js`) — `hashValue`, `splitKey`, `validate`,
  * `src/unnamed/part_008` (`layer-list.js`, the module exporting `Base`) —
    `LayerList.add` ordered insertion and `LayerList.query`.

JavaScript numbers that occur in the model are naturals; the 32-bit coercions
of the hash loop are made explicit with `% 2^32` and `Nat.xor`.
-/

set_option maxRecDepth 100000

namespace ConfigKit

/-! ### The hash function (`hashValue` in node.js / util.js) -/

/-- One loop iteration of `hashValue`: `hash = hash * 33 ^ str.charCodeAt(--i)`.
Both operands of JavaScript `^` are coerced to 32 bits, so on unsigned
representatives the step is multiply, reduce mod `2^32`, then xor. -/
def hashStep (h c : Nat) : Nat := (33 * h % 4294967296) ^^^ c

/-- The `hashValue` loop walks the string from the last character to the first,
starting from `5381`; the final `>>> 0` is the identity on our unsigned
representatives. -/
def hashCodes (cs : List Nat) : Nat := cs.foldr (fun c h => hashStep h c) 5381

/-- Character codes of a string, as fed to `charCodeAt`. -/
def strCodes (s : String) : List Nat := s.data.map Char.toNat

/-- Decimal digits of a natural number; fuel-indexed structural recursion so
that concrete instances reduce inside the kernel. -/
def natDecimalAux : Nat → Nat → List Char → List Char
  | 0, _, acc => acc
  | fuel + 1, n, acc =>
    let acc := Char.ofNat (48 + n % 10) :: acc
    if n < 10 then acc else natDecimalAux fuel (n / 10) acc

/-- Decimal rendering of a natural number (what `JSON.stringify` produces for the
integer values appearing in this model). -/
def natDecimal (n : Nat) : String := ⟨natDecimalAux (n + 1) n []⟩

/-- JSON string escaping for one character, as `JSON.stringify` performs it. -/
def jsonEscape (c : Char) : List Char :=
  if c = '"' then ['\\', '"']
  else if c = '\\' then ['\\', '\\']
  else if c = Char.ofNat 8 then ['\\', 'b']
  else if c = Char.ofNat 9 then ['\\', 't']
  else if c = Char.ofNat 10 then ['\\', 'n']
  else if c = Char.ofNat 12 then ['\\', 'f']
  else if c = Char.ofNat 13 then ['\\', 'r']
  else if c.toNat < 32 then
    ['\\', 'u', '0', '0', Char.ofNat (if c.toNat / 16 < 10 then 48 + c.toNat / 16 else 87 + c.toNat / 16),
      Char.ofNat (if c.toNat % 16 < 10 then 48 + c.toNat % 16 else 87 + c.toNat % 16)]
  else [c]

/-! ### Scalar values -/

/-- Scalar (non-container) JavaScript values stored at the leaves of a config
tree: `null`, booleans, (natural) numbers and strings. -/
inductive SVal where
  | nullV : SVal
  | boolV : Bool → SVal
  | numV : Nat → SVal
  | strV : String → SVal
deriving DecidableEq

/-- JSON text of a scalar, per `JSON.stringify`. -/
def jsonOfScalar : SVal → String
  | .nullV => "null"
  | .boolV true => "true"
  | .boolV false => "false"
  | .numV n => natDecimal n
  | .strV s => ⟨'"' :: s.data.foldr (fun c acc => jsonEscape c ++ acc) ['"']⟩

/-- `hashValue` applied to a scalar: DJB2-style hash of its JSON text. -/
def hashScalar (v : SVal) : Nat := hashCodes (strCodes (jsonOfScalar v))

/-- JSON text of an array of numbers; this is the shape `hashValue` receives for
a node's own hash (`Object.values(internal.hashes)` for objects, the `hashes`
array itself for arrays). -/
def jsonOfNatList (ns : List Nat) : String :=
  "[" ++ String.intercalate "," (ns.map natDecimal) ++ "]"

/-- The hash a node stores for itself, computed from its list of child hashes. -/
def hashOfHashes (ns : List Nat) : Nat := hashCodes (strCodes (jsonOfNatList ns))

/-! ### Plain values (the raw objects handed to `set`, before Node wrapping) -/

mutual
/-- A plain JSON-like JavaScript value: scalar, object literal or array literal. -/
inductive PVal where
  | sv : SVal → PVal
  | obj : PFields → PVal
  | arr : PElems → PVal

/-- Ordered fields of a plain object (JavaScript objects preserve insertion
order of their string keys). -/
inductive PFields where
  | nil : PFields
  | cons : String → PVal → PFields → PFields

/-- Elements of a plain array. -/
inductive PElems where
  | nil : PElems
  | cons : PVal → PElems → PElems
end

/-! ### Reactive Node trees

A `Node` wraps an object or array in a proxy holding internal metadata:
`hashes` (per-key child hashes) and `hash` (hash of the child-hash list).
`NTree` carries exactly that: the stored entries plus the *cached* `hashes`
table and `hash` value, which the traps update incrementally. -/

mutual
/-- One stored property value: a scalar, or a child Node. -/
inductive NEntry where
  | leafE : SVal → NEntry
  | childE : NTree → NEntry

/-- A Node: an object node (ordered entries, cached keyed hash table, cached own
hash) or an array node (ordered elements, cached hash array, cached own hash). -/
inductive NTree where
  | objN : NEFields → List (String × Nat) → Nat → NTree
  | arrN : NEList → List Nat → Nat → NTree

/-- Ordered keyed entries of an object node. -/
inductive NEFields where
  | nil : NEFields
  | cons : String → NEntry → NEFields → NEFields

/-- Ordered elements of an array node. -/
inductive NEList where
  | nil : NEList
  | cons : NEntry → NEList → NEList
end

/-- The cached structural hash stored in a node's metadata. -/
def NTree.hashOf : NTree → Nat
  | .objN _ _ h => h
  | .arrN _ _ h => h

/-- The hash recorded for one child: `hashValue(value)` for scalars, the child
node's own cached hash otherwise (node.js `rehash` / set trap). -/
def entryHash : NEntry → Nat
  | .leafE v => hashScalar v
  | .childE t => t.hashOf

/-- Keyed child-hash table recomputed from the entries, in entry order
(what `rehash` rebuilds from `Reflect.ownKeys`). -/
def khashes : NEFields → List (String × Nat)
  | .nil => []
  | .cons k e r => (k, entryHash e) :: khashes r

/-- Child-hash array of an array node's elements. -/
def lhashes : NEList → List Nat
  | .nil => []
  | .cons e r => entryHash e :: lhashes r

/-- A freshly built object node: entries plus hash table and own hash exactly as
the `Node` constructor's `rehash(true)` computes them. -/
def mkObjNode (es : NEFields) : NTree :=
  .objN es (khashes es) (hashOfHashes ((khashes es).map Prod.snd))

/-- A freshly built array node, per the constructor's `rehash(true)`. -/
def mkArrNode (es : NEList) : NTree :=
  .arrN es (lhashes es) (hashOfHashes (lhashes es))

mutual
/-- Wrapping of a plain value assigned into a tree: scalars are stored directly,
containers become child Nodes (`new Node(value, node)` + constructor rehash). -/
def wrapNE : PVal → NEntry
  | .sv s => .leafE s
  | .obj fs => .childE (mkObjNode (wrapF fs))
  | .arr es => .childE (mkArrNode (wrapL es))

/-- Wrapping of plain object fields. -/
def wrapF : PFields → NEFields
  | .nil => .nil
  | .cons k v r => .cons k (wrapNE v) (wrapF r)

/-- Wrapping of plain array elements. -/
def wrapL : PElems → NEList
  | .nil => .nil
  | .cons v r => .cons (wrapNE v) (wrapL r)
end

mutual
/-- Observable contents of a node tree: the plain value obtained by reading
every property back out through the proxy (hash caches stripped). -/
def observeT : NTree → PVal
  | .objN es _ _ => .obj (observeF es)
  | .arrN es _ _ => .arr (observeL es)

/-- Observable contents of one entry. -/
def observeE : NEntry → PVal
  | .leafE v => .sv v
  | .childE t => observeT t

/-- Observable contents of keyed entries. -/
def observeF : NEFields → PFields
  | .nil => .nil
  | .cons k e r => .cons k (observeE e) (observeF r)

/-- Observable contents of array elements. -/
def observeL : NEList → PElems
  | .nil => .nil
  | .cons e r => .cons (observeE e) (observeL r)
end

/-! ### Assoc-list primitives used by the traps -/

/-- `Object.getOwnPropertyDescriptor(target, prop)` on the stored entries:
first binding for the key, if any. -/
def NEFields.lookupE : NEFields → String → Option NEntry
  | .nil, _ => none
  | .cons k e r, p => if k = p then some e else NEFields.lookupE r p

/-- `delete target[prop]`: remove the binding for the key. -/
def NEFields.removeK : NEFields → String → NEFields
  | .nil, _ => .nil
  | .cons k e r, p => if k = p then r else .cons k e (NEFields.removeK r p)

/-- `target[prop] = value` on a key not currently present: append at the end
(JavaScript insertion order). -/
def NEFields.appendK : NEFields → String → NEntry → NEFields
  | .nil, p, e => .cons p e .nil
  | .cons k x r, p, e => .cons k x (NEFields.appendK r p e)

/-- Keys of the stored entries, in order. -/
def NEFields.keysOf : NEFields → List String
  | .nil => []
  | .cons k _ r => k :: NEFields.keysOf r

/-- `internal.hashes[prop]` read on the keyed hash table. -/
def lookK : List (String × Nat) → String → Option Nat
  | [], _ => none
  | (k, x) :: r, p => if k = p then some x else lookK r p

/-- `internal.hashes[prop] = hash`: update in place when the key exists (keeping
its position — this is what the set trap does), append otherwise. -/
def updK : List (String × Nat) → String → Nat → List (String × Nat)
  | [], p, h => [(p, h)]
  | (k, x) :: r, p, h => if k = p then (p, h) :: r else (k, x) :: updK r p h

/-- `delete internal.hashes[prop]` (deleteProperty trap). -/
def delK : List (String × Nat) → String → List (String × Nat)
  | [], _ => []
  | (k, x) :: r, p => if k = p then r else (k, x) :: delK r p

/-! ### The proxy traps on object nodes -/

/-- The proxy `set` trap of node.js on an object node.

Mirrors lines 274–323 of `src/src/node.js`: compute the incoming value's hash
(wrapping containers into Nodes first); if the property exists and its recorded
hash equals the new hash, return with no change at all; otherwise
`delete target[prop]` followed by `target[prop] = value` (which moves an
existing key to the end of the object), update `internal.hashes[prop]` *in
place*, recompute `internal.hash` from the hash table's values, and notify.
The boolean result reports whether `internal.notify` was invoked (the trap's
`changed` variable is initialized to `true` and never cleared). -/
def setOp (n : NTree) (p : String) (v : PVal) : NTree × Bool :=
  match n with
  | .objN es hs h =>
    let hv := entryHash (wrapNE v)
    match es.lookupE p with
    | some _ =>
      if lookK hs p = some hv then (.objN es hs h, false)
      else
        let es' := (es.removeK p).appendK p (wrapNE v)
        let hs' := updK hs p hv
        (.objN es' hs' (hashOfHashes (hs'.map Prod.snd)), true)
    | none =>
      let es' := es.appendK p (wrapNE v)
      let hs' := updK hs p hv
      (.objN es' hs' (hashOfHashes (hs'.map Prod.snd)), true)
  | .arrN es hs h => (.arrN es hs h, false)

/-- The proxy `deleteProperty` trap of node.js on an object node (lines
205–222): when the property exists, detach the child's parent link, delete the
entry and its hash, recompute the node hash from `Object.values(internal.hashes)`
and notify; otherwise do nothing. The boolean reports whether notify ran. -/
def deleteOp (n : NTree) (p : String) : NTree × Bool :=
  match n with
  | .objN es hs h =>
    match es.lookupE p with
    | some _ =>
      let es' := es.removeK p
      let hs' := delK hs p
      (.objN es' hs' (hashOfHashes (hs'.map Prod.snd)), true)
    | none => (.objN es hs h, false)
  | .arrN es hs h => (.arrN es hs h, false)

/-- A full `internal.rehash()` at a node: rebuild the hash table from the
entries in `Reflect.ownKeys` order and recompute the node's own hash. -/
def rehashOp : NTree → NTree
  | .objN es _ _ => mkObjNode es
  | .arrN es _ _ => mkArrNode es

/-- Key consistency between stored entries and the hash table — every reachable
node satisfies it (both are populated and depopulated together). Bool-valued so
concrete instances can be checked by evaluation. -/
def wfKeys : NTree → Bool
  | .objN es hs _ =>
    (es.keysOf.all fun k => (lookK hs k).isSome) &&
      (hs.all fun kv => (es.lookupE kv.1).isSome)
  | .arrN _ _ _ => true

/-! ### Small lemmas about the assoc-list primitives -/

theorem lookupE_appendK_isSome : ∀ (es : NEFields) (p : String) (e : NEntry),
    (NEFields.lookupE (es.appendK p e) p).isSome = true
  | .nil, p, e => by simp [NEFields.appendK, NEFields.lookupE]
  | .cons k x r, p, e => by
    simp only [NEFields.appendK, NEFields.lookupE]
    split
    · simp
    · exact lookupE_appendK_isSome r p e

theorem lookK_updK_self (hs : List (String × Nat)) (p : String) (h : Nat) :
    lookK (updK hs p h) p = some h := by
  induction hs with
  | nil => simp [updK, lookK]
  | cons kv r ih =>
    obtain ⟨k, x⟩ := kv
    simp only [updK]
    split
    · simp [lookK]
    · simp only [lookK]
      rw [if_neg (by assumption)]
      exact ih

theorem lookK_mem (hs : List (String × Nat)) (p : String) (x : Nat)
    (h : lookK hs p = some x) : (p, x) ∈ hs := by
  induction hs with
  | nil => simp [lookK] at h
  | cons kv r ih =>
    obtain ⟨k, y⟩ := kv
    simp only [lookK] at h
    split at h
    · cases h
      subst_vars
      exact List.mem_cons_self _ _
    · exact List.mem_cons_of_mem _ (ih h)

/-! ### Claim C1 — identical writes are deduplicated and idempotent -/

/-- Claim C1: if the structural hash computed for the incoming value `v` equals
the hash recorded for property `p` in the node's child-hash table, the set trap
is a complete no-op — the node (entries, child-hash table and own hash) is
returned unchanged and `internal.notify` is not invoked. Moreover a second
identical `set` right after any `set` is always such a no-op, so `set(n,p,v)`
immediately followed by `set(n,p,v)` invokes notify at most once in total. -/
theorem C1_set_dedupe_idempotent (es : NEFields) (hs : List (String × Nat))
    (h : Nat) (p : String) (v : PVal) :
    (wfKeys (.objN es hs h) = true →
      lookK hs p = some (entryHash (wrapNE v)) →
      setOp (.objN es hs h) p v = (.objN es hs h, false)) ∧
    setOp (setOp (.objN es hs h) p v).1 p v = ((setOp (.objN es hs h) p v).1, false) ∧
    (setOp (.objN es hs h) p v).2.toNat +
      (setOp (setOp (.objN es hs h) p v).1 p v).2.toNat ≤ 1 := by
  have second :
      setOp (setOp (.objN es hs h) p v).1 p v = ((setOp (.objN es hs h) p v).1, false) := by
    rcases hdesc : es.lookupE p with _ | e
    · -- property absent: first set stores and notifies, second set dedupes
      have hsome := lookupE_appendK_isSome es p (wrapNE v)
      obtain ⟨e', he'⟩ := Option.isSome_iff_exists.mp hsome
      simp [setOp, hdesc, he', lookK_updK_self]
    · by_cases hcond : lookK hs p = some (entryHash (wrapNE v))
      · -- first set is itself a no-op; the state and thus the dedupe persist
        simp [setOp, hdesc, hcond]
      · -- first set stores; the stored hash now matches, second set dedupes
        have hsome := lookupE_appendK_isSome (es.removeK p) p (wrapNE v)
        obtain ⟨e', he'⟩ := Option.isSome_iff_exists.mp hsome
        simp [setOp, hdesc, hcond, he', lookK_updK_self]
  refine ⟨?_, second, ?_⟩
  · intro hwf hcond
    simp only [wfKeys, Bool.and_eq_true, List.all_eq_true] at hwf
    obtain ⟨-, hall⟩ := hwf
    have hdescSome := hall _ (lookK_mem hs p _ hcond)
    obtain ⟨e, he⟩ := Option.isSome_iff_exists.mp hdescSome
    simp [setOp, he, hcond]
  · rw [second]
    cases hb : (setOp (.objN es hs h) p v).2 <;> simp

/-- Concrete instance for C1: a node holding `{ a: 2 }` with its reachable hash
caches; re-setting `a` to `2` satisfies the hypotheses and is a no-op. -/
def c1Node : NTree := mkObjNode (.cons "a" (.leafE (.numV 2)) .nil)

/-- Witness for C1 at the concrete node `{ a: 2 }` and write `a := 2`. -/
theorem C1_set_dedupe_idempotent_witness :
    wfKeys c1Node = true ∧
    lookK [("a", hashScalar (.numV 2))] "a" = some (entryHash (wrapNE (.sv (.numV 2)))) ∧
    setOp c1Node "a" (.sv (.numV 2)) = (c1Node, false) :=
  ⟨by decide, by decide,
    (C1_set_dedupe_idempotent (.cons "a" (.leafE (.numV 2)) .nil)
      [("a", hashScalar (.numV 2))] (hashOfHashes [hashScalar (.numV 2)]) "a"
      (.sv (.numV 2))).1 (by decide) (by decide)⟩

/-! ### Claim C2 — the stored hash is not a function of the observable contents -/

/-- Building block for the C2 evaluation: a plain number value. -/
def numPV (n : Nat) : PVal := .sv (.numV n)

/-- An empty object node, as produced by `new Node({})`. -/
def emptyObjNode : NTree := mkObjNode .nil

/-- First mutation sequence: `set a=1; set b=2; set a=5` from an empty object.
The final overwrite of `a` moves the key `a` to the end of the target (the trap
does `delete target[prop]` then `target[prop] = value`) but updates
`internal.hashes.a` in place, leaving the hash table in key order `[a, b]`
while the contents are in key order `[b, a]`. -/
def c2SeqA : NTree :=
  (setOp (setOp (setOp emptyObjNode "a" (numPV 1)).1 "b" (numPV 2)).1 "a" (numPV 5)).1

/-- Second mutation sequence: `set b=2; set a=5` from an empty object, reaching
the very same observable contents `{ b: 2, a: 5 }` (same key order, same
values) with the hash table in key order `[b, a]`. -/
def c2SeqB : NTree :=
  (setOp (setOp emptyObjNode "b" (numPV 2)).1 "a" (numPV 5)).1

/-- Claim C2 fails on the code: the two mutation sequences produce nodes whose
observable contents (read back through the proxy, key order included) are
identical, yet whose stored structural hashes differ; moreover a full
`rehash()` of the first node computes a hash different from the one the set
trap stored for the very same state, so the trap's incremental hash update
contradicts the code's own canonical `rehash`. -/
theorem C2_hash_divergence :
    observeT c2SeqA = observeT c2SeqB ∧
    c2SeqA.hashOf ≠ c2SeqB.hashOf ∧
    (rehashOp c2SeqA).hashOf ≠ c2SeqA.hashOf ∧
    (rehashOp c2SeqA).hashOf = c2SeqB.hashOf := by
  refine ⟨rfl, by decide, by decide, by decide⟩

/-! ### Array nodes: the intercepted mutators (`get` trap, lines 224–269) -/

/-- Number of elements of an array node. -/
def NEList.lengthL : NEList → Nat
  | .nil => 0
  | .cons _ r => 1 + NEList.lengthL r

/-- Append two element lists. -/
def NEList.appendL : NEList → NEList → NEList
  | .nil, ys => ys
  | .cons e r, ys => .cons e (NEList.appendL r ys)

/-- First `n` elements. -/
def NEList.takeL : Nat → NEList → NEList
  | 0, _ => .nil
  | _ + 1, .nil => .nil
  | n + 1, .cons e r => .cons e (NEList.takeL n r)

/-- All but the first `n` elements. -/
def NEList.dropL : Nat → NEList → NEList
  | 0, es => es
  | _ + 1, .nil => .nil
  | n + 1, .cons _ r => NEList.dropL n r

/-- Last element, if any (`Array.prototype.pop` result). -/
def NEList.lastL? : NEList → Option NEntry
  | .nil => none
  | .cons e .nil => some e
  | .cons _ (.cons e r) => NEList.lastL? (.cons e r)

/-- All but the last element (`pop`'s effect on the target). -/
def NEList.dropLastL : NEList → NEList
  | .nil => .nil
  | .cons _ .nil => .nil
  | .cons e (.cons f r) => .cons e (NEList.dropLastL (.cons f r))

/-- Wrap a list of plain values pushed into an array; raw values are appended by
the native mutator and the subsequent `rehash()` wraps containers into Nodes. -/
def wrapList : List PVal → NEList
  | [] => .nil
  | v :: r => .cons (wrapNE v) (wrapList r)

/-- `push(...args)` wrapper: pause, native push, rehash, resume, then notify
only if arguments were supplied (`!additive || args.length`). -/
def pushOp (n : NTree) (args : List PVal) : NTree × Bool :=
  match n with
  | .arrN es _ _ => (mkArrNode (es.appendL (wrapList args)), !args.isEmpty)
  | .objN es hs h => (.objN es hs h, false)

/-- `unshift(...args)` wrapper: like push but prepending. -/
def unshiftOp (n : NTree) (args : List PVal) : NTree × Bool :=
  match n with
  | .arrN es _ _ => (mkArrNode ((wrapList args).appendL es), !args.isEmpty)
  | .objN es hs h => (.objN es hs h, false)

/-- `pop()` wrapper: pause, native pop, rehash, resume, always notify; the
returned element is `undefined` (`none`) on an empty array. -/
def popOp (n : NTree) : NTree × Bool × Option PVal :=
  match n with
  | .arrN es _ _ => (mkArrNode es.dropLastL, true, es.lastL?.map observeE)
  | .objN es hs h => (.objN es hs h, false, none)

/-- `shift()` wrapper: pause, native shift, rehash, resume, always notify. -/
def shiftOp (n : NTree) : NTree × Bool × Option PVal :=
  match n with
  | .arrN es _ _ =>
    (mkArrNode (match es with | .nil => .nil | .cons _ r => r), true,
      match es with | .nil => none | .cons e _ => some (observeE e))
  | .objN es hs h => (.objN es hs h, false, none)

/-- `splice(start, deleteCount, ...items)` wrapper: when `deleteCount` is
omitted it defaults to `this.length - start`; native splice (with JavaScript's
clamping of `start` and the count), rehash, then notify only if the recomputed
hash differs from the pre-splice hash. -/
def spliceOp (n : NTree) (start : Nat) (dc : Option Nat) (items : List PVal) :
    NTree × Bool :=
  match n with
  | .arrN es _ h =>
    let len := es.lengthL
    let d := match dc with
      | none => len - start
      | some d => d
    let start' := min start len
    let cnt := min d (len - start')
    let es' := (es.takeL start').appendL ((wrapList items).appendL (es.dropL (start' + cnt)))
    let n' := mkArrNode es'
    (n', decide (n'.hashOf ≠ h))
  | .objN es hs h => (.objN es hs h, false)

/-- An array node whose cached hash data agrees with its elements — true of
every reachable array node (the constructor and each mutator rehash). -/
def wfArr : NTree → Prop
  | .arrN es hs h => hs = lhashes es ∧ h = hashOfHashes (lhashes es)
  | .objN _ _ _ => False

theorem appendL_nil : ∀ es : NEList, es.appendL .nil = es
  | .nil => rfl
  | .cons e r => by rw [NEList.appendL, appendL_nil r]

/-! ### Claim C8 — notification contract of the array mutators -/

/-- Claim C8: on an array node, `push`/`unshift` invoke notify exactly when at
least one argument is supplied (and an argumentless `push` on a reachable
array node leaves it entirely unchanged); `pop`/`shift` always notify, and on
an empty array return `undefined`; `splice` defaults an omitted `deleteCount`
to the rest of the array, notifies exactly when the post-splice hash differs
from the pre-splice hash, and in particular `splice(0,0)` on a reachable
array node is unchanged and does not notify. -/
theorem C8_array_mutators (es : NEList) (hs : List Nat) (h : Nat)
    (args items : List PVal) (s d : Nat) :
    ((pushOp (.arrN es hs h) args).2 = !args.isEmpty ∧
      (unshiftOp (.arrN es hs h) args).2 = !args.isEmpty) ∧
    (wfArr (.arrN es hs h) → pushOp (.arrN es hs h) [] = (.arrN es hs h, false)) ∧
    ((popOp (.arrN es hs h)).2.1 = true ∧ (shiftOp (.arrN es hs h)).2.1 = true ∧
      (popOp (.arrN .nil hs h)).2.2 = none ∧ (shiftOp (.arrN .nil hs h)).2.2 = none) ∧
    (spliceOp (.arrN es hs h) s none items =
      spliceOp (.arrN es hs h) s (some (es.lengthL - s)) items) ∧
    ((spliceOp (.arrN es hs h) s (some d) items).2 = true ↔
      (spliceOp (.arrN es hs h) s (some d) items).1.hashOf ≠ h) ∧
    (wfArr (.arrN es hs h) → spliceOp (.arrN es hs h) 0 (some 0) [] = (.arrN es hs h, false)) := by
  refine ⟨⟨rfl, rfl⟩, ?_, ⟨rfl, rfl, rfl, rfl⟩, rfl, by simp [spliceOp], ?_⟩
  · rintro ⟨hhs, hh⟩
    subst hhs
    subst hh
    simp [pushOp, mkArrNode, wrapList, appendL_nil]
  · rintro ⟨hhs, hh⟩
    subst hhs
    subst hh
    simp [spliceOp, NEList.takeL, NEList.appendL, wrapList, NEList.dropL, mkArrNode,
      NTree.hashOf]

/-- Witness for C8 at a concrete reachable array node `[7]` (with its canonical
hash caches), pushing `[8]` and splicing nothing. -/
theorem C8_array_mutators_witness :
    wfArr (.arrN (.cons (.leafE (.numV 7)) .nil) (lhashes (.cons (.leafE (.numV 7)) .nil))
        (hashOfHashes (lhashes (.cons (.leafE (.numV 7)) .nil)))) ∧
    pushOp (.arrN (.cons (.leafE (.numV 7)) .nil) (lhashes (.cons (.leafE (.numV 7)) .nil))
        (hashOfHashes (lhashes (.cons (.leafE (.numV 7)) .nil)))) [] =
      (.arrN (.cons (.leafE (.numV 7)) .nil) (lhashes (.cons (.leafE (.numV 7)) .nil))
        (hashOfHashes (lhashes (.cons (.leafE (.numV 7)) .nil))), false) :=
  ⟨⟨rfl, rfl⟩,
    (C8_array_mutators (.cons (.leafE (.numV 7)) .nil)
        (lhashes (.cons (.leafE (.numV 7)) .nil))
        (hashOfHashes (lhashes (.cons (.leafE (.numV 7)) .nil))) [] [] 0 0).2.1 ⟨rfl, rfl⟩⟩

/-! ### Parent-link bookkeeping of the set and delete traps (for claim C9)

Nodes carry a `parents` set in their metadata. The delete trap runs
`target[prop]?.[Node.Meta]?.parents.delete(node)` before removing the entry;
the set trap instead runs `internal.parents.delete(node)` — on the acting
node's *own* parents set — and then deletes the old entry from the raw target
(no trap fires), so the overwritten child's parents set is never touched.
The records below carry the three parents sets the traps can reach: the acting
node's own set, the set of the node previously stored at `p` (when it is a
child node), and the set of the newly stored child (when the incoming value is
a container, `new Node(value, node)` seeds it with the acting node). -/

structure SetParentsResult where
  tree : NTree
  notified : Bool
  selfParents : List Nat
  oldChildParents : List Nat
  newChildParents : List Nat

/-- The set trap including its effect on the reachable parents sets; `selfId`
names the acting node. Mirrors lines 274–323 of node.js line by line:
container values are wrapped (seeding the fresh child's parents with `selfId`);
on the dedupe early return nothing is changed; otherwise
`internal.parents.delete(node)` erases `selfId` from the acting node's own
parents, the old entry is deleted from the raw target (the overwritten child's
parents set is left as is), and the new value is stored. -/
def setOpP (selfId : Nat) (selfParents : List Nat) (n : NTree) (p : String) (v : PVal)
    (oldChildParents : List Nat) : SetParentsResult :=
  match n with
  | .objN es hs h =>
    let hv := entryHash (wrapNE v)
    let newChildParents := match v with
      | .sv _ => []
      | _ => [selfId]
    match es.lookupE p with
    | some _ =>
      if lookK hs p = some hv then
        ⟨.objN es hs h, false, selfParents, oldChildParents, newChildParents⟩
      else
        let es' := (es.removeK p).appendK p (wrapNE v)
        let hs' := updK hs p hv
        ⟨.objN es' hs' (hashOfHashes (hs'.map Prod.snd)), true,
          selfParents.erase selfId, oldChildParents, newChildParents⟩
    | none =>
      let es' := es.appendK p (wrapNE v)
      let hs' := updK hs p hv
      ⟨.objN es' hs' (hashOfHashes (hs'.map Prod.snd)), true,
        selfParents, oldChildParents, newChildParents⟩
  | .arrN es hs h => ⟨.arrN es hs h, false, selfParents, oldChildParents, []⟩

/-- The delete trap including its effect on the removed child's parents set:
when the property exists and holds a child node, `selfId` is erased from that
child's parents before the entry and its hash are removed. -/
def deleteOpP (selfId : Nat) (n : NTree) (p : String) (oldChildParents : List Nat) :
    NTree × Bool × List Nat :=
  match n with
  | .objN es hs h =>
    match es.lookupE p with
    | some e =>
      let oldChildParents' := match e with
        | .childE _ => oldChildParents.erase selfId
        | .leafE _ => oldChildParents
      let es' := es.removeK p
      let hs' := delK hs p
      (.objN es' hs' (hashOfHashes (hs'.map Prod.snd)), true, oldChildParents')
    | none => (.objN es hs h, false, oldChildParents)
  | .arrN es hs h => (.arrN es hs h, false, oldChildParents)

/-! ### Claim C9 — detaching the overwritten/deleted child's parent link -/

/-- A concrete parent node holding a child node `{ x: 1 }` at property `p`,
with its reachable hash caches. The acting node's id is `1`, and the child's
parents set is `[1]`. -/
def c9Node : NTree := mkObjNode (.cons "p" (wrapNE (.obj (.cons "x" (numPV 1) .nil))) .nil)

/-- Claim C9 fails on the set trap: overwriting property `p` (whose current
value is a child node) with a value of different hash does *not* remove the
acting node from the old child's parents set — the trap erases the acting node
from its own parents instead (`internal.parents.delete(node)`) and deletes the
old entry on the raw target without triggering the delete trap. The delete
trap, by contrast, does detach the removed child's parent link. -/
theorem C9_parent_detach_divergence :
    (setOpP 1 [] c9Node "p" (numPV 5) [1]).notified = true ∧
    (setOpP 1 [] c9Node "p" (numPV 5) [1]).oldChildParents = [1] ∧
    (deleteOpP 1 c9Node "p" [1]).2.2 = [] := by
  refine ⟨rfl, rfl, rfl⟩

/-! ### Listener bookkeeping, `filterObject`, notify, pause and resume

The model below tracks one (root) node's full metadata: the tree with its hash
caches, the pause counter, the pending counter, the `listeners` map (a
JavaScript `Map`, i.e. an insertion-ordered listener-keyed assoc list; `null`
and the empty map behave identically everywhere they are read, so a plain list
is used) and the `previous` per-listener filtered-hash cache (a lazily
allocated `WeakMap`, whose `null` state is observable in `notify`, hence an
`Option`). Listener functions are named by numeric ids. The node is a root:
its `parents` set is empty, so the parent-propagation loops are vacuous. -/

/-- `Map.get` on an insertion-ordered assoc list. -/
def lookA {α : Type} : List (Nat × α) → Nat → Option α
  | [], _ => none
  | (k, x) :: r, p => if k = p then some x else lookA r p

/-- `Map.set`: replace in place when the key exists, append otherwise. -/
def updA {α : Type} : List (Nat × α) → Nat → α → List (Nat × α)
  | [], p, v => [(p, v)]
  | (k, x) :: r, p, v => if k = p then (p, v) :: r else (k, x) :: updA r p v

/-- The filtered hash recorded for a listener: `internal.hashes[key]` values are
numbers; the variable is initialized to `null` (`none`). -/
abbrev HVal := Option Nat

/-- A watch filter as stored in the listeners map: `null` for global listeners,
a key path otherwise. -/
abbrev Filter := Option (List String)

/-- One node's metadata state. -/
structure MState where
  tree : NTree
  paused : Nat
  pending : Nat
  listeners : List (Nat × Filter)
  previous : Option (List (Nat × HVal))

/-- `filterObject(node, filter)` (node.js lines 444–462): walk the filter path
while the current value is a container; a missing own property stops the walk
with `found = false` (keeping the hash gathered so far); reaching a scalar or
exhausting the path stops with `found = true`. Returns
`(found, hash, value)`. -/
def filterGo : NTree → List String → HVal → Bool × HVal × Option PVal
  | t, [], hash => (true, hash, some (observeT t))
  | t, k :: rest, hash =>
    match t with
    | .objN es hs _ =>
      match es.lookupE k with
      | none => (false, hash, none)
      | some e =>
        let hash' := lookK hs k
        match e with
        | .childE t' => filterGo t' rest hash'
        | .leafE v => (true, hash', some (.sv v))
    | .arrN _ _ _ => (false, hash, none)

/-- `filterObject` entry point: the hash variable starts as `null`. -/
def filterObject (t : NTree) (filter : List String) : Bool × HVal × Option PVal :=
  filterGo t filter none

/-- One pass over the listeners (the body of `internal.notify` when not
paused): global listeners are invoked unconditionally; filtered listeners are
invoked only when `(found && !previous) || (previous && hash !== previous.get(listener))`,
and the `previous` cache is (allocated and) updated for them either way.
Returns the final cache and the ids invoked, in order. -/
def passGo (t : NTree) : List (Nat × Filter) → Option (List (Nat × HVal)) →
    Option (List (Nat × HVal)) × List Nat
  | [], prev => (prev, [])
  | (lid, fil) :: rest, prev =>
    match fil with
    | none =>
      let r := passGo t rest prev
      (r.1, lid :: r.2)
    | some f =>
      let fo := filterObject t f
      let changed := (fo.1 && prev.isNone) ||
        (prev.isSome && decide (lookA (prev.getD []) lid ≠ some fo.2.1))
      let prev' := some (updA (prev.getD []) lid fo.2.1)
      let r := passGo t rest prev'
      (r.1, if changed then lid :: r.2 else r.2)

/-- `internal.notify`: while paused, record a pending change and invoke nobody;
otherwise run exactly one notification pass over this node's listeners. The
third component counts the notification passes performed (0 or 1). -/
def notifyFn (s : MState) : MState × List Nat × Nat :=
  if s.paused ≠ 0 then ({ s with pending := s.pending + 1 }, [], 0)
  else
    let r := passGo s.tree s.listeners s.previous
    ({ s with previous := r.1 }, r.2, 1)

/-- `internal.watch(filter, listener)`: `listeners.set(listener, filter)` —
keyed by the listener alone, so a re-registration replaces the stored filter —
then, for a filtered registration whose filter currently resolves, seed the
`previous` cache. -/
def watchFn (s : MState) (fil : Filter) (lid : Nat) : MState :=
  let ls2 := updA s.listeners lid fil
  match fil with
  | none => { s with listeners := ls2 }
  | some f =>
    let fo := filterObject s.tree f
    if fo.1 then
      { s with listeners := ls2, previous := some (updA (s.previous.getD []) lid fo.2.1) }
    else { s with listeners := ls2 }

/-- `internal.pause()`: increment the pause counter. -/
def pauseFn (s : MState) : MState := { s with paused := s.paused + 1 }

/-- `internal.resume()`: decrement the counter (floored at 0); when it reaches
zero with pending changes, clear `pending` and run `notify` — which performs
exactly one pass. -/
def resumeFn (s : MState) : MState × List Nat × Nat :=
  let s' := { s with paused := s.paused - 1 }
  if s'.paused = 0 ∧ 0 < s.pending then notifyFn { s' with pending := 0 }
  else (s', [], 0)

/-- Operations against one node, as a small command language. -/
inductive MOp where
  | setP : String → PVal → MOp
  | delP : String → MOp
  | pauseP : MOp
  | resumeP : MOp

/-- Whether an operation is a structural mutation (a set or a delete). -/
def MOp.isMut : MOp → Bool
  | .setP _ _ => true
  | .delP _ => true
  | .pauseP => false
  | .resumeP => false

/-- The structural effect of an operation on the tree alone (hash caches
included); pause/resume do not touch the tree. -/
def treeStep (t : NTree) : MOp → NTree
  | .setP p v => (setOp t p v).1
  | .delP p => (deleteOp t p).1
  | .pauseP => t
  | .resumeP => t

/-- One step of the full state machine; returns the new state, the listener ids
invoked during the step, and the number of notification passes performed. -/
def stepM (s : MState) : MOp → MState × List Nat × Nat
  | .setP p v =>
    let r := setOp s.tree p v
    let s' := { s with tree := r.1 }
    if r.2 then notifyFn s' else (s', [], 0)
  | .delP p =>
    let r := deleteOp s.tree p
    let s' := { s with tree := r.1 }
    if r.2 then notifyFn s' else (s', [], 0)
  | .pauseP => (pauseFn s, [], 0)
  | .resumeP => resumeFn s

/-- Run a sequence of operations, collecting all invocations and counting all
notification passes. -/
def runM (s : MState) : List MOp → MState × List Nat × Nat
  | [] => (s, [], 0)
  | op :: ops =>
    let r := stepM s op
    let r' := runM r.1 ops
    (r'.1, r.2.1 ++ r'.2.1, r.2.2 + r'.2.2)

/-- Iterated structural effect on the tree. -/
def treeRun (t : NTree) : List MOp → NTree
  | [] => t
  | op :: ops => treeRun (treeStep t op) ops

/-! ### Lemmas about the state machine -/

theorem stepM_mut_paused (s : MState) (op : MOp) (hp : 0 < s.paused)
    (hm : op.isMut = true) :
    (stepM s op).2.1 = [] ∧ (stepM s op).2.2 = 0 ∧
    (stepM s op).1.tree = treeStep s.tree op ∧
    (stepM s op).1.paused = s.paused := by
  have hne : s.paused ≠ 0 := by omega
  cases op with
  | setP p v =>
    simp only [stepM, treeStep]
    split
    · simp [notifyFn, hne]
    · simp
  | delP p =>
    simp only [stepM, treeStep]
    split
    · simp [notifyFn, hne]
    · simp
  | pauseP => simp [MOp.isMut] at hm
  | resumeP => simp [MOp.isMut] at hm

theorem runM_paused_mut (s : MState) (ops : List MOp) (hp : 0 < s.paused)
    (hm : ∀ op ∈ ops, op.isMut = true) :
    (runM s ops).2.1 = [] ∧ (runM s ops).2.2 = 0 ∧
    (runM s ops).1.tree = treeRun s.tree ops ∧
    (runM s ops).1.paused = s.paused := by
  induction ops generalizing s with
  | nil => simp [runM, treeRun]
  | cons op rest ih =>
    obtain ⟨h1, h2, h3, h4⟩ := stepM_mut_paused s op hp (hm op (List.mem_cons_self _ _))
    have hp' : 0 < (stepM s op).1.paused := by rw [h4]; exact hp
    obtain ⟨g1, g2, g3, g4⟩ := ih (stepM s op).1 hp'
      (fun o ho => hm o (List.mem_cons_of_mem _ ho))
    refine ⟨?_, ?_, ?_, ?_⟩
    · simp [runM, h1, g1]
    · simp [runM, h2, g2]
    · simp only [runM, treeRun]
      rw [g3, h3]
    · simp only [runM]
      rw [g4, h4]

/-! ### Claim C3 — pausing batches notifications into one pass on resume -/

/-- Claim C3: while the pause counter is positive, any sequence of mutations
(sets and deletes) invokes no listener and performs no notification pass, yet
the tree — structural hashes included — evolves exactly as the unpaused
structural updates dictate, and the pause counter is unchanged; when a resume
brings the counter from one to zero with pending changes, exactly one
notification pass fires and the pending counter clears. -/
theorem C3_pause_resume (s : MState) (ops : List MOp) :
    (0 < s.paused → (∀ op ∈ ops, op.isMut = true) →
      (runM s ops).2.1 = [] ∧ (runM s ops).2.2 = 0 ∧
      (runM s ops).1.tree = treeRun s.tree ops ∧
      (runM s ops).1.paused = s.paused) ∧
    (s.paused = 1 → 0 < s.pending →
      (resumeFn s).2.2 = 1 ∧ (resumeFn s).1.paused = 0 ∧ (resumeFn s).1.pending = 0) := by
  constructor
  · exact fun hp hm => runM_paused_mut s ops hp hm
  · intro hp1 hpend
    have : s.paused - 1 = 0 := by omega
    simp [resumeFn, notifyFn, this, hpend]

/-- Witness for C3: a paused node (`paused = 1`, two pending changes) holding
`{ a: 2 }` with one global listener; a set and a delete while paused invoke
nobody, then resume fires exactly one pass. -/
def c3State : MState :=
  { tree := c1Node, paused := 1, pending := 2, listeners := [(9, none)], previous := none }

/-- Witness for C3 at the concrete paused state. -/
theorem C3_pause_resume_witness :
    (0 < c3State.paused ∧ (∀ op ∈ [MOp.setP "a" (numPV 3), MOp.delP "a"], op.isMut = true)) ∧
    ((runM c3State [MOp.setP "a" (numPV 3), MOp.delP "a"]).2.1 = [] ∧
      (runM c3State [MOp.setP "a" (numPV 3), MOp.delP "a"]).2.2 = 0) ∧
    ((resumeFn c3State).2.2 = 1 ∧ (resumeFn c3State).1.paused = 0 ∧
      (resumeFn c3State).1.pending = 0) := by
  refine ⟨⟨by decide, by decide⟩, ?_, ?_⟩
  · have h := (C3_pause_resume c3State [MOp.setP "a" (numPV 3), MOp.delP "a"]).1
      (by decide) (by decide)
    exact ⟨h.1, h.2.1⟩
  · exact (C3_pause_resume c3State [MOp.setP "a" (numPV 3), MOp.delP "a"]).2 rfl (by decide)

/-! ### Claim C10 — listener registrations are keyed by the listener alone -/

theorem lookA_updA_self {α : Type} (l : List (Nat × α)) (k : Nat) (v : α) :
    lookA (updA l k v) k = some v := by
  induction l with
  | nil => simp [updA, lookA]
  | cons kv r ih =>
    obtain ⟨k', x⟩ := kv
    simp only [updA]
    split
    · simp [lookA]
    · simp only [lookA]
      rw [if_neg (by assumption)]
      exact ih

theorem length_updA_isSome {α : Type} (l : List (Nat × α)) (k : Nat) (v : α)
    (h : (lookA l k).isSome = true) : (updA l k v).length = l.length := by
  induction l with
  | nil => simp [lookA] at h
  | cons kv r ih =>
    obtain ⟨k', x⟩ := kv
    simp only [lookA] at h
    simp only [updA]
    split
    · simp
    · rw [if_neg (by assumption)] at h
      simp [ih h]

theorem keys_updA {α : Type} (l : List (Nat × α)) (k : Nat) (v : α) :
    (updA l k v).map Prod.fst = l.map Prod.fst ∨
    (updA l k v).map Prod.fst = l.map Prod.fst ++ [k] ∧ k ∉ l.map Prod.fst := by
  induction l with
  | nil => right; simp [updA]
  | cons kv r ih =>
    obtain ⟨k', x⟩ := kv
    simp only [updA]
    split
    · left; simp_all
    · rcases ih with h | ⟨h, hk⟩
      · left; simp [h]
      · right
        constructor
        · simp [h]
        · simp only [List.map_cons, List.mem_cons]
          rintro (rfl | hmem)
          · exact absurd rfl (by assumption)
          · exact hk hmem

theorem nodup_updA {α : Type} (l : List (Nat × α)) (k : Nat) (v : α)
    (h : (l.map Prod.fst).Nodup) : ((updA l k v).map Prod.fst).Nodup := by
  rcases keys_updA l k v with heq | ⟨heq, hk⟩
  · rw [heq]; exact h
  · rw [heq]
    simp only [List.nodup_append, List.nodup_cons, List.nodup_nil]
    exact ⟨h, by simp, by simpa using hk⟩

theorem passGo_count (t : NTree) (l : List (Nat × Filter))
    (prev : Option (List (Nat × HVal))) (lid : Nat) :
    ((passGo t l prev).2.count lid) ≤ (l.map Prod.fst).count lid := by
  induction l generalizing prev with
  | nil => simp [passGo]
  | cons kv r ih =>
    obtain ⟨k, fil⟩ := kv
    cases fil with
    | none =>
      simp only [passGo, List.map_cons]
      rw [List.count_cons, List.count_cons]
      have := ih prev
      split <;> omega
    | some f =>
      simp only [passGo, List.map_cons]
      rw [List.count_cons]
      split
      · rw [List.count_cons]
        have := ih (some (updA (prev.getD []) k (filterObject t f).2.1))
        split <;> omega
      · have := ih (some (updA (prev.getD []) k (filterObject t f).2.1))
        omega

theorem watchFn_listeners (s : MState) (fil : Filter) (lid : Nat) :
    (watchFn s fil lid).listeners = updA s.listeners lid fil := by
  cases fil with
  | none => rfl
  | some f =>
    simp only [watchFn]
    split <;> rfl

/-- Claim C10: the listeners map is keyed by the listener function alone:
re-registering a listener replaces its stored filter (the map still holds the
listener once, now with the new filter, and does not grow), registration keeps
listener keys unique, and during one notification pass a listener is invoked
at most once. -/
theorem C10_watch_keyed_by_listener (s : MState) (f₁ f₂ : Filter) (lid : Nat) :
    lookA (watchFn (watchFn s f₁ lid) f₂ lid).listeners lid = some f₂ ∧
    (watchFn (watchFn s f₁ lid) f₂ lid).listeners.length =
      (watchFn s f₁ lid).listeners.length ∧
    ((s.listeners.map Prod.fst).Nodup →
      ((watchFn s f₁ lid).listeners.map Prod.fst).Nodup) ∧
    ((s.listeners.map Prod.fst).Nodup → (notifyFn s).2.1.count lid ≤ 1) := by
  refine ⟨?_, ?_, ?_, ?_⟩
  · rw [watchFn_listeners, watchFn_listeners]
    exact lookA_updA_self _ _ _
  · rw [watchFn_listeners, watchFn_listeners]
    refine length_updA_isSome _ _ _ ?_
    rw [lookA_updA_self]
    rfl
  · intro h
    rw [watchFn_listeners]
    exact nodup_updA _ _ _ h
  · intro h
    simp only [notifyFn]
    split
    · simp
    · calc ((passGo s.tree s.listeners s.previous).2.count lid)
          ≤ (s.listeners.map Prod.fst).count lid := passGo_count _ _ _ _
        _ ≤ 1 := List.nodup_iff_count_le_one.mp h lid

/-- Witness for C10 at a concrete state: one listener (id 9) registered with a
filter, re-registered with another. -/
theorem C10_watch_keyed_by_listener_witness :
    (c3State.listeners.map Prod.fst).Nodup ∧
    lookA (watchFn (watchFn c3State (some ["a"]) 9) (some ["b"]) 9).listeners 9 =
      some (some ["b"]) ∧
    (notifyFn c3State).2.1.count 9 ≤ 1 := by
  refine ⟨by decide, ?_, ?_⟩
  · exact (C10_watch_keyed_by_listener c3State (some ["a"]) (some ["b"]) 9).1
  · exact (C10_watch_keyed_by_listener c3State (some ["a"]) (some ["b"]) 9).2.2.2
      (by decide)

/-! ### The validation engine (`validate` in util.js, src/unnamed/part_007)

A Joi schema is modelled by its shape relevant to `validate`: whether its type
is `object`, whether its metas carry a `readonly` marker, and its keyed child
schemas (`$_terms.keys`). The terminal `Joi.attempt` call — the opaque schema
library's acceptance of a value — is a boolean oracle passed as a parameter. -/

mutual
/-- A schema node: object-typed flag, read-only meta marker, child schemas. -/
inductive JSchema where
  | mk : Bool → Bool → JSFields → JSchema

/-- Keyed child schemas of an object-typed schema. -/
inductive JSFields where
  | nil : JSFields
  | cons : String → JSchema → JSFields → JSFields
end

/-- Whether the schema's type is `object`. -/
def JSchema.isObjType : JSchema → Bool
  | .mk b _ _ => b

/-- Whether one of the schema's metas carries `readonly` (`checkReadonly`). -/
def JSchema.readonlyMeta : JSchema → Bool
  | .mk _ r _ => r

/-- The schema's keyed children. -/
def JSchema.keysOfS : JSchema → JSFields
  | .mk _ _ ks => ks

/-- Child schemas stored under a given key. -/
def JSFields.matching : JSFields → String → List JSchema
  | .nil, _ => []
  | .cons k s r, p => if k = p then s :: JSFields.matching r p else JSFields.matching r p

/-- The `scopeSchemas` collected at one level of the walk: for every currently
applicable object-typed schema, its children stored under the scope key. -/
def scopeSchemas (schemas : List JSchema) (k : String) : List JSchema :=
  schemas.foldr (fun s acc => (if s.isObjType then s.keysOfS.matching k else []) ++ acc) []

/-- Validation failures: the read-only error and a schema validation error
(`Joi.attempt` throwing). -/
inductive VErr where
  | readOnlyErr : VErr
  | validationErr : VErr
deriving DecidableEq

/-- One level of the walk loop over the applicable schemas, in list order: for
each schema, first the read-only check (skipped for `load` actions), then — at
the terminal level with a defined value — the schema library's validation. -/
def checkLevel (attempt : JSchema → PVal → Bool) (action : String) (terminal : Bool)
    (value : Option PVal) : List JSchema → Except VErr Unit
  | [] => .ok ()
  | s :: rest =>
    if action ≠ "load" ∧ s.readonlyMeta = true then .error .readOnlyErr
    else if terminal then
      match value with
      | some v =>
        if attempt s v then checkLevel attempt action terminal value rest
        else .error .validationErr
      | none => checkLevel attempt action terminal value rest
    else checkLevel attempt action terminal value rest

/-- The recursive walk of `validate`: shift one key segment per level, check
the level, then descend into the collected scope schemas while any exist. -/
def walkV (attempt : JSchema → PVal → Bool) (action : String) (value : Option PVal) :
    List String → List JSchema → Except VErr Unit
  | [], schemas => checkLevel attempt action true value schemas
  | k :: rest, schemas =>
    match checkLevel attempt action false value schemas with
    | .error e => .error e
    | .ok _ =>
      let next := scopeSchemas schemas k
      if next.isEmpty then .ok () else walkV attempt action value rest next

/-- `validate({ schemas, key, value, action })` (util.js lines 147–188),
with the schema library's per-schema acceptance as the `attempt` oracle. -/
def validateV (attempt : JSchema → PVal → Bool) (schemas : List JSchema)
    (key : List String) (value : Option PVal) (action : String) : Except VErr Unit :=
  walkV attempt action value key schemas

/-- Whether a read-only marker occurs anywhere on the walked chain: on a schema
applicable at some level from the root down to and including the terminal
segment. -/
def anyLevelReadonly : List String → List JSchema → Bool
  | [], schemas => schemas.any (fun s => s.readonlyMeta)
  | k :: rest, schemas =>
    schemas.any (fun s => s.readonlyMeta) || anyLevelReadonly rest (scopeSchemas schemas k)

/-- Whether a read-only marker occurs strictly above the terminal segment. -/
def upperLevelReadonly : List String → List JSchema → Bool
  | [], _ => false
  | k :: rest, schemas =>
    schemas.any (fun s => s.readonlyMeta) || upperLevelReadonly rest (scopeSchemas schemas k)

theorem anyLevelReadonly_nil : ∀ key : List String, anyLevelReadonly key [] = false
  | [] => rfl
  | k :: rest => by
    simp only [anyLevelReadonly, List.any_nil, Bool.false_or]
    have : scopeSchemas [] k = [] := rfl
    rw [this]
    exact anyLevelReadonly_nil rest

theorem checkLevel_ok_of_no_readonly (attempt : JSchema → PVal → Bool) (action : String)
    (value : Option PVal) (schemas : List JSchema)
    (hro : schemas.any (fun s => s.readonlyMeta) = false) :
    checkLevel attempt action false value schemas = .ok () := by
  induction schemas with
  | nil => rfl
  | cons s rest ih =>
    simp only [List.any_cons, Bool.or_eq_false_iff] at hro
    simp only [checkLevel]
    rw [if_neg (by simp [hro.1])]
    exact ih hro.2

theorem checkLevel_readOnly_nonterminal (attempt : JSchema → PVal → Bool) (action : String)
    (value : Option PVal) (schemas : List JSchema) (hact : action ≠ "load")
    (hro : schemas.any (fun s => s.readonlyMeta) = true) :
    checkLevel attempt action false value schemas = .error .readOnlyErr := by
  induction schemas with
  | nil => simp at hro
  | cons s rest ih =>
    simp only [List.any_cons, Bool.or_eq_true] at hro
    by_cases hs : s.readonlyMeta = true
    · simp [checkLevel, hact, hs]
    · simp only [checkLevel]
      rw [if_neg (by simp [hs])]
      exact ih (hro.resolve_left hs)

theorem checkLevel_error_of_readonly (attempt : JSchema → PVal → Bool) (action : String)
    (terminal : Bool) (value : Option PVal) (schemas : List JSchema) (hact : action ≠ "load")
    (hro : schemas.any (fun s => s.readonlyMeta) = true) :
    ∃ e, checkLevel attempt action terminal value schemas = .error e := by
  induction schemas with
  | nil => simp at hro
  | cons s rest ih =>
    simp only [List.any_cons, Bool.or_eq_true] at hro
    by_cases hs : s.readonlyMeta = true
    · exact ⟨.readOnlyErr, by simp [checkLevel, hact, hs]⟩
    · have hrest := hro.resolve_left hs
      simp only [checkLevel]
      rw [if_neg (by simp [hs])]
      rcases terminal with _ | _
      · simpa using ih hrest
      · rcases value with _ | v
        · simpa using ih hrest
        · cases hb : attempt s v with
          | true => simpa [hb] using ih hrest
          | false => exact ⟨.validationErr, by simp [hb]⟩

theorem checkLevel_readOnly_of_attempt_true (attempt : JSchema → PVal → Bool)
    (action : String) (terminal : Bool) (value : Option PVal) (schemas : List JSchema)
    (hatt : ∀ s v, attempt s v = true) (hact : action ≠ "load")
    (hro : schemas.any (fun s => s.readonlyMeta) = true) :
    checkLevel attempt action terminal value schemas = .error .readOnlyErr := by
  induction schemas with
  | nil => simp at hro
  | cons s rest ih =>
    simp only [List.any_cons, Bool.or_eq_true] at hro
    by_cases hs : s.readonlyMeta = true
    · simp [checkLevel, hact, hs]
    · have hrest := hro.resolve_left hs
      simp only [checkLevel]
      rw [if_neg (by simp [hs])]
      rcases terminal with _ | _
      · simpa using ih hrest
      · rcases value with _ | v
        · simpa using ih hrest
        · simpa [hatt s v] using ih hrest

theorem checkLevel_ne_readOnly_of_no_readonly (attempt : JSchema → PVal → Bool)
    (action : String) (terminal : Bool) (value : Option PVal) (schemas : List JSchema)
    (hro : schemas.any (fun s => s.readonlyMeta) = false) :
    checkLevel attempt action terminal value schemas ≠ .error .readOnlyErr := by
  induction schemas with
  | nil => simp [checkLevel]
  | cons s rest ih =>
    simp only [List.any_cons, Bool.or_eq_false_iff] at hro
    simp only [checkLevel]
    rw [if_neg (by simp [hro.1])]
    rcases terminal with _ | _
    · simpa using ih hro.2
    · rcases value with _ | v
      · simpa using ih hro.2
      · cases hb : attempt s v with
        | true => simpa [hb] using ih hro.2
        | false => simp [hb]

theorem upperLevelReadonly_nil : ∀ key : List String, upperLevelReadonly key [] = false
  | [] => rfl
  | k :: rest => by
    simp only [upperLevelReadonly, List.any_nil, Bool.false_or]
    have : scopeSchemas [] k = [] := rfl
    rw [this]
    exact upperLevelReadonly_nil rest

/-- Claim C5, amended: for every non-load action, if a read-only marker occurs
on a schema node applicable anywhere along the walked path (root through the
terminal segment), validation always fails; it fails specifically with the
read-only error whenever the marker lies strictly above the terminal segment,
and also at the terminal segment whenever the other schemas' terminal
validation accepts the value (in particular, irrespective of whether the value
equals the current one — `validate` never consults current values); and a walk
whose path meets no read-only marker (in particular a write to a strict
ancestor of a read-only-marked node) never fails with the read-only error. -/
theorem C5_readonly_guard (attempt : JSchema → PVal → Bool) (schemas : List JSchema)
    (key : List String) (value : Option PVal) (action : String) (hact : action ≠ "load") :
    (anyLevelReadonly key schemas = true →
      ∃ e, validateV attempt schemas key value action = .error e) ∧
    (upperLevelReadonly key schemas = true →
      validateV attempt schemas key value action = .error .readOnlyErr) ∧
    ((∀ s v, attempt s v = true) → anyLevelReadonly key schemas = true →
      validateV attempt schemas key value action = .error .readOnlyErr) ∧
    (anyLevelReadonly key schemas = false →
      validateV attempt schemas key value action ≠ .error .readOnlyErr) := by
  induction key generalizing schemas with
  | nil =>
    refine ⟨?_, ?_, ?_, ?_⟩
    · intro h
      exact checkLevel_error_of_readonly attempt action true value schemas hact
        (by simpa [anyLevelReadonly] using h)
    · intro h
      simp [upperLevelReadonly] at h
    · intro hatt h
      exact checkLevel_readOnly_of_attempt_true attempt action true value schemas hatt hact
        (by simpa [anyLevelReadonly] using h)
    · intro h
      exact checkLevel_ne_readOnly_of_no_readonly attempt action true value schemas
        (by simpa [anyLevelReadonly] using h)
  | cons k rest ih =>
    by_cases hany : schemas.any (fun s => s.readonlyMeta) = true
    · have hchk := checkLevel_readOnly_nonterminal attempt action value schemas hact hany
      refine ⟨fun _ => ⟨.readOnlyErr, ?_⟩, fun _ => ?_, fun _ _ => ?_, fun h => ?_⟩
      · simp only [validateV, walkV, hchk]
      · simp only [validateV, walkV, hchk]
      · simp only [validateV, walkV, hchk]
      · exact fun _ => by
          have hx : anyLevelReadonly (k :: rest) schemas = true := by
            simp [anyLevelReadonly, hany]
          rw [h] at hx
          cases hx
    · have hany' : schemas.any (fun s => s.readonlyMeta) = false :=
        Bool.eq_false_iff.mpr hany
      have hchk := checkLevel_ok_of_no_readonly attempt action value schemas hany'
      refine ⟨?_, ?_, ?_, ?_⟩
      · intro h
        have hrest : anyLevelReadonly rest (scopeSchemas schemas k) = true := by
          simpa [anyLevelReadonly, hany'] using h
        have hne : (scopeSchemas schemas k).isEmpty ≠ true := by
          intro he
          rw [List.isEmpty_iff.mp he, anyLevelReadonly_nil] at hrest
          cases hrest
        simp only [validateV, walkV, hchk]
        rw [if_neg hne]
        exact (ih (scopeSchemas schemas k)).1 hrest
      · intro h
        have hrest : upperLevelReadonly rest (scopeSchemas schemas k) = true := by
          simpa [upperLevelReadonly, hany'] using h
        have hne : (scopeSchemas schemas k).isEmpty ≠ true := by
          intro he
          rw [List.isEmpty_iff.mp he, upperLevelReadonly_nil] at hrest
          cases hrest
        simp only [validateV, walkV, hchk]
        rw [if_neg hne]
        exact (ih (scopeSchemas schemas k)).2.1 hrest
      · intro hatt h
        have hrest : anyLevelReadonly rest (scopeSchemas schemas k) = true := by
          simpa [anyLevelReadonly, hany'] using h
        have hne : (scopeSchemas schemas k).isEmpty ≠ true := by
          intro he
          rw [List.isEmpty_iff.mp he, anyLevelReadonly_nil] at hrest
          cases hrest
        simp only [validateV, walkV, hchk]
        rw [if_neg hne]
        exact (ih (scopeSchemas schemas k)).2.2.1 hatt hrest
      · intro h
        have hrest : anyLevelReadonly rest (scopeSchemas schemas k) = false := by
          simpa [anyLevelReadonly, hany'] using h
        simp only [validateV, walkV, hchk]
        split
        · simp
        · exact (ih (scopeSchemas schemas k)).2.2.2 hrest

/-- A schema child that rejects everything relevant (not object-typed, no
read-only marker) — stands for e.g. `Joi.string().valid('x')`. -/
def c5Reject : JSchema := .mk false false .nil

/-- A schema child carrying the read-only meta marker. -/
def c5ReadonlyChild : JSchema := .mk false true .nil

/-- A base schema declaring field `a` with a value-rejecting child schema. -/
def c5Base : JSchema := .mk true false (.cons "a" c5Reject .nil)

/-- A layer schema declaring field `a` with a read-only marker. -/
def c5Layer : JSchema := .mk true false (.cons "a" c5ReadonlyChild .nil)

/-- An oracle on which every terminal validation rejects (a schema/value pair
the schema library refuses, e.g. a number against `Joi.string()`). -/
def attemptRejectAll : JSchema → PVal → Bool := fun _ _ => false

/-- Counterexample to claim C5 as stated: with the base schema listed before
the layer schema (as `LayerList.add` builds the list), field `a` carries a
read-only marker in the layer schema, yet `set('a', 1)` fails with the
*validation* error from the base schema's terminal validation — the read-only
check of the later-listed schema is never reached, so validation does not fail
with a read-only error. -/
theorem C5_counterexample :
    anyLevelReadonly ["a"] [c5Base, c5Layer] = true ∧
    validateV attemptRejectAll [c5Base, c5Layer] ["a"] (some (numPV 1)) "set" =
      .error .validationErr := by
  exact ⟨rfl, rfl⟩

/-- An oracle on which every terminal validation accepts. -/
def attemptAcceptAll : JSchema → PVal → Bool := fun _ _ => true

/-- A schema marking the nested field `c.d` read-only. -/
def c5DeepRO : JSchema :=
  .mk true false (.cons "c" (.mk true false (.cons "d" c5ReadonlyChild .nil)) .nil)

/-- Witness for C5 (amended) at a schema marking `c.d` read-only: a write
targeting `c.d` fails with the read-only error, while a write targeting the
strict ancestor `c` does not fail with a read-only error. -/
theorem C5_readonly_guard_witness :
    ("set" : String) ≠ "load" ∧
    anyLevelReadonly ["c", "d"] [c5DeepRO] = true ∧
    validateV attemptAcceptAll [c5DeepRO] ["c", "d"] (some (numPV 1)) "set" =
      .error .readOnlyErr ∧
    anyLevelReadonly ["c"] [c5DeepRO] = false ∧
    validateV attemptAcceptAll [c5DeepRO] ["c"] (some (numPV 1)) "set" ≠
      .error .readOnlyErr :=
  ⟨by decide, rfl,
    (C5_readonly_guard attemptAcceptAll [c5DeepRO] ["c", "d"] (some (numPV 1)) "set"
      (by decide)).2.2.1 (fun _ _ => rfl) rfl,
    rfl,
    (C5_readonly_guard attemptAcceptAll [c5DeepRO] ["c"] (some (numPV 1)) "set"
      (by decide)).2.2.2 rfl⟩

/-! ### The layer list (`src/unnamed/part_008`, the layer-list module that
exports `Base`; ids are strings, `order` is a JavaScript number that may be
`-Infinity` for the `Base` layer) -/

/-- A layer's order: `-Infinity` (the `Base` layer) or a finite number. -/
inductive JOrd where
  | negInf : JOrd
  | fin : Int → JOrd
deriving DecidableEq

/-- JavaScript `a <= b` on orders (so `b >= a` in the source's spelling);
`-Infinity <= x` always holds, including for `x = -Infinity`. -/
def JOrd.le : JOrd → JOrd → Bool
  | .negInf, _ => true
  | .fin _, .negInf => false
  | .fin a, .fin b => a ≤ b

/-- The layer data relevant to list placement and lookup. -/
structure LayerRec where
  lid : String
  order : JOrd
deriving DecidableEq

/-- Assoc-list lookup with string keys (`this.map[id]`). -/
def lookS {α : Type} : List (String × α) → String → Option α
  | [], _ => none
  | (k, x) :: r, p => if k = p then some x else lookS r p

/-- A layer list: the precedence-ordered `layers` array and the id-keyed `map`. -/
structure LL where
  layers : List LayerRec
  map : List (String × LayerRec)

/-- An id argument to `LayerList.query`: omitted, the `All` sentinel, a single
id, or an array of ids. -/
inductive QId where
  | noneQ : QId
  | allQ : QId
  | oneQ : String → QId
  | manyQ : List String → QId

/-- The raw id list of an explicit request (`arrayify(id, true)`, which drops
falsey entries — for string ids, the empty string). -/
def rawIds : QId → Option (List String)
  | .noneQ => none
  | .allQ => none
  | .oneQ i => some ([i].filter (fun s => s ≠ ""))
  | .manyQ is => some (is.filter (fun s => s ≠ ""))

/-- `LayerList.query(id, reverse)` (part_008 lines 206–232): with the id
omitted or `All`, the ids of all layers in list order; otherwise the requested
ids *filtered down to those present in the map*, failing with `NotFound` only
when none remain; reversed on request. The resulting ids are what the returned
iterator feeds through `this.map`. -/
def queryIds (ll : LL) (q : QId) (reverse : Bool) : Except Unit (List String) :=
  match rawIds q with
  | none =>
    let ids := ll.layers.map (fun l => l.lid)
    .ok (if reverse then ids.reverse else ids)
  | some req =>
    let ids := req.filter (fun i => (lookS ll.map i).isSome)
    if ids.isEmpty then .error ()
    else .ok (if reverse then ids.reverse else ids)

/-- Insertion scan of `LayerList.add` (part_008 lines 168–177): walk the list
from the end; after the last entry whose order satisfies
`layer.order >= this.layers[i].order`, splice the new layer in; `none` when no
entry satisfies it. -/
def insertFromEnd (l : LayerRec) : List LayerRec → Option (List LayerRec)
  | [] => none
  | x :: xs =>
    match insertFromEnd l xs with
    | some r => some (x :: r)
    | none => if x.order.le l.order then some (x :: l :: xs) else none

/-- Remove the first layer with the given id (the splice performed when a
layer of the same id already existed). -/
def removeById (ls : List LayerRec) (i : String) : List LayerRec :=
  match ls with
  | [] => []
  | x :: xs => if x.lid = i then xs else x :: removeById xs i

/-- `LayerList.add` restricted to its placement effect on the `layers` array:
drop a previously existing layer of the same id, scan from the end for the
insertion point, and fall back to `push` when the scan finds none. -/
def addOp (ls : List LayerRec) (l : LayerRec) : List LayerRec :=
  let ls2 := if ls.any (fun x => x.lid = l.lid) then removeById ls l.lid else ls
  match insertFromEnd l ls2 with
  | some r => r
  | none => ls2 ++ [l]

/-- Claim-side decomposition: split the list around the *last* entry whose
order is `<=` the given order — the prefix ends with that entry. -/
def splitAtLastLE (o : JOrd) : List LayerRec → Option (List LayerRec × List LayerRec)
  | [] => none
  | x :: xs =>
    match splitAtLastLE o xs with
    | some (a, b) => some (x :: a, b)
    | none => if x.order.le o then some ([x], xs) else none

theorem splitAtLastLE_none (o : JOrd) : ∀ ls : List LayerRec,
    splitAtLastLE o ls = none ↔ ∀ x ∈ ls, x.order.le o = false
  | [] => by simp [splitAtLastLE]
  | x :: xs => by
    simp only [splitAtLastLE]
    rcases h : splitAtLastLE o xs with _ | ab
    · have hx := (splitAtLastLE_none o xs).mp h
      constructor
      · intro hif
        intro y hy
        rcases List.mem_cons.mp hy with rfl | hmem
        · by_contra hyo
          rw [if_pos (by revert hyo; cases y.order.le o <;> simp)] at hif
          cases hif
        · exact hx y hmem
      · intro hall
        rw [if_neg (by simp [hall x (List.mem_cons_self _ _)])]
    · constructor
      · intro hif
        cases hif
      · intro hall
        have := (splitAtLastLE_none o xs).mpr (fun y hy => hall y (List.mem_cons_of_mem _ hy))
        rw [this] at h
        cases h

theorem splitAtLastLE_spec (o : JOrd) : ∀ (ls a b : List LayerRec),
    splitAtLastLE o ls = some (a, b) →
    ls = a ++ b ∧
    (∃ la, a.getLast? = some la ∧ la.order.le o = true) ∧
    (∀ x ∈ b, x.order.le o = false)
  | [], a, b => by simp [splitAtLastLE]
  | x :: xs, a, b => by
    simp only [splitAtLastLE]
    rcases h : splitAtLastLE o xs with _ | ⟨a', b'⟩
    · intro hif
      by_cases hx : x.order.le o = true
      · rw [if_pos hx] at hif
        injection hif with hif
        obtain ⟨rfl, rfl⟩ := Prod.mk.injEq .. ▸ And.intro (congrArg Prod.fst hif) (congrArg Prod.snd hif)
        refine ⟨by simp, ⟨x, by simp, hx⟩, ?_⟩
        exact (splitAtLastLE_none o xs).mp h
      · rw [if_neg hx] at hif
        cases hif
    · intro hif
      injection hif with hif
      obtain ⟨ha, hb⟩ := And.intro (congrArg Prod.fst hif) (congrArg Prod.snd hif)
      subst ha
      subst hb
      obtain ⟨hxs, ⟨la, hla, hlao⟩, hball⟩ := splitAtLastLE_spec o xs a' b' h
      refine ⟨by simp [hxs], ⟨la, ?_, hlao⟩, hball⟩
      rcases a' with _ | ⟨y, ys⟩
      · simp [List.getLast?] at hla
      · rw [List.getLast?_cons_cons]
        exact hla

theorem insertFromEnd_eq_split (l : LayerRec) : ∀ ls : List LayerRec,
    insertFromEnd l ls =
      match splitAtLastLE l.order ls with
      | some (a, b) => some (a ++ l :: b)
      | none => none
  | [] => rfl
  | x :: xs => by
    simp only [insertFromEnd, splitAtLastLE, insertFromEnd_eq_split l xs]
    rcases h : splitAtLastLE l.order xs with _ | ⟨a, b⟩
    · simp only []
      split <;> rfl
    · rfl

/-! ### Claim C7 — ordered insertion in `LayerList.add` -/

/-- Claim C7: adding a layer whose id is new, to a list containing some layer
of order `<=` the new one (the `Base` layer of order `-Infinity` guarantees
this in every reachable list), inserts the new layer immediately after the
*last* existing layer whose order is `<=` the new layer's order: the list
splits as `a ++ b` with `a` ending in that layer, every layer of `b` having
strictly greater order, and the result being `a ++ [new] ++ b`. Consequently
equal-order layers keep insertion order (they all sit in `a`, before the new
layer) and the head of the list — `Base` — stays first. -/
theorem C7_add_sorted_insert (ls : List LayerRec) (l : LayerRec)
    (hfresh : ∀ x ∈ ls, x.lid ≠ l.lid)
    (hex : ∃ x ∈ ls, x.order.le l.order = true) :
    ∃ a b, splitAtLastLE l.order ls = some (a, b) ∧
      addOp ls l = a ++ l :: b ∧
      ls = a ++ b ∧
      (∃ la, a.getLast? = some la ∧ la.order.le l.order = true) ∧
      (∀ x ∈ b, x.order.le l.order = false) ∧
      (∀ base rest, ls = base :: rest → (addOp ls l).head? = some base) := by
  have hany : ls.any (fun x => x.lid = l.lid) = false := by
    simp only [List.any_eq_false, decide_eq_true_eq]
    exact hfresh
  have hsome : splitAtLastLE l.order ls ≠ none := by
    intro hn
    obtain ⟨x, hx, hxle⟩ := hex
    rw [(splitAtLastLE_none l.order ls).mp hn x hx] at hxle
    cases hxle
  rcases hab : splitAtLastLE l.order ls with _ | ⟨a, b⟩
  · exact absurd hab hsome
  obtain ⟨hls, hlast, hball⟩ := splitAtLastLE_spec l.order ls a b hab
  have haddeq : addOp ls l = a ++ l :: b := by
    simp only [addOp, hany, if_false, Bool.false_eq_true, insertFromEnd_eq_split, hab]
  refine ⟨a, b, rfl, haddeq, hls, hlast, hball, ?_⟩
  intro base rest hcons
  rcases a with _ | ⟨a0, arest⟩
  · obtain ⟨la, hla, -⟩ := hlast
    simp [List.getLast?] at hla
  · rw [hls] at hcons
    have : a0 = base := by
      simpa using congrArg List.head? hcons
    rw [haddeq, this]
    rfl

/-- Concrete layers for the C7 witness: `Base` (order `-Infinity`), `A` and
`B` of order 0, `C` of order 5. -/
def baseL : LayerRec := ⟨"base", .negInf⟩

def layerA : LayerRec := ⟨"A", .fin 0⟩

def layerB : LayerRec := ⟨"B", .fin 0⟩

def layerC : LayerRec := ⟨"C", .fin 5⟩

/-- Witness for C7: adding `B` (order 0) to `[Base, A, C]` places it right
after `A` — after the equal-order `A`, before the greater-order `C`, with
`Base` still first. -/
theorem C7_add_sorted_insert_witness :
    (∀ x ∈ [baseL, layerA, layerC], x.lid ≠ layerB.lid) ∧
    (∃ x ∈ [baseL, layerA, layerC], x.order.le layerB.order = true) ∧
    (∃ a b, splitAtLastLE layerB.order [baseL, layerA, layerC] = some (a, b) ∧
      addOp [baseL, layerA, layerC] layerB = a ++ layerB :: b ∧
      [baseL, layerA, layerC] = a ++ b ∧
      (∃ la, a.getLast? = some la ∧ la.order.le layerB.order = true) ∧
      (∀ x ∈ b, x.order.le layerB.order = false) ∧
      (∀ base rest, [baseL, layerA, layerC] = base :: rest →
        (addOp [baseL, layerA, layerC] layerB).head? = some base)) ∧
    addOp [baseL, layerA, layerC] layerB = [baseL, layerA, layerB, layerC] :=
  ⟨by decide, by decide,
    C7_add_sorted_insert [baseL, layerA, layerC] layerB (by decide) (by decide),
    by decide⟩

/-! ### Claim C6 — `NotFound` behavior of `LayerList.query` -/

/-- Claim C6, amended: `query` with the id omitted or with the `All` sentinel
never fails; an explicit request fails with `NotFound` exactly when *none* of
the requested (non-falsey) ids resolves to an existing layer — requested ids
that do not resolve are silently dropped from the iteration rather than
failing it; a single id behaves like a one-element array. -/
theorem C6_query_notfound (ll : LL) (ids : List String) (i : String) (rev : Bool) :
    (queryIds ll .noneQ rev).isOk = true ∧
    (queryIds ll .allQ rev).isOk = true ∧
    ((queryIds ll (.manyQ ids) rev).isOk = true ↔
      ∃ j ∈ ids, j ≠ "" ∧ (lookS ll.map j).isSome = true) ∧
    queryIds ll (.oneQ i) rev = queryIds ll (.manyQ [i]) rev := by
  refine ⟨rfl, rfl, ?_, rfl⟩
  simp only [queryIds, rawIds]
  split
  · simp only [Except.isOk, Except.toBool, Bool.false_eq_true, false_iff]
    rename_i hempty
    rw [List.isEmpty_iff] at hempty
    intro ⟨j, hj, hne, hsome⟩
    have : j ∈ (ids.filter (fun s => s ≠ "")).filter (fun i => (lookS ll.map i).isSome) := by
      simp only [List.mem_filter, decide_eq_true_eq]
      exact ⟨⟨hj, by simpa using hne⟩, by simpa using hsome⟩
    rw [hempty] at this
    cases this
  · simp only [Except.isOk, Except.toBool, true_iff]
    rename_i hne
    rw [List.isEmpty_iff] at hne
    rcases hmem : (ids.filter (fun s => s ≠ "")).filter (fun i => (lookS ll.map i).isSome) with
      _ | ⟨j, rest⟩
    · exact absurd hmem hne
    · have hjmem : j ∈ (ids.filter (fun s => s ≠ "")).filter
          (fun i => (lookS ll.map i).isSome) := by
        rw [hmem]
        exact List.mem_cons_self _ _
      simp only [List.mem_filter, decide_eq_true_eq] at hjmem
      exact ⟨j, hjmem.1.1, by simpa using hjmem.1.2, hjmem.2⟩

/-- A layer list holding a single layer `a` (the state after adding one layer
to a fresh list, restricted to the fields `query` reads). -/
def c6LL : LL := ⟨[⟨"a", .fin 0⟩], [("a", ⟨"a", .fin 0⟩)]⟩

/-- Counterexample to claim C6 as stated: the list has a layer `a` but no
layer `b`; the explicit request `query(['a','b'])` contains an id that does
not resolve, so per the claim it must fail with `NotFound` — but the code
filters unresolved ids out and succeeds, yielding only `a`. -/
theorem C6_counterexample :
    lookS c6LL.map "b" = none ∧
    queryIds c6LL (.manyQ ["a", "b"]) false = .ok ["a"] := ⟨rfl, rfl⟩

/-- Witness for C6 (amended) at the concrete one-layer list: omitted/All
requests succeed, `['a','b']` succeeds (only `a` resolves), `['z']` fails. -/
theorem C6_query_notfound_witness :
    (queryIds c6LL .allQ false).isOk = true ∧
    (queryIds c6LL (.manyQ ["a", "b"]) false).isOk = true ∧
    (queryIds c6LL (.manyQ ["z"]) false).isOk ≠ true :=
  ⟨(C6_query_notfound c6LL [] "" false).2.1,
    ((C6_query_notfound c6LL ["a", "b"] "" false).2.2.1).mpr
      ⟨"a", by decide, by decide, by decide⟩,
    fun h => by
      obtain ⟨j, hj, -, hsome⟩ := ((C6_query_notfound c6LL ["z"] "" false).2.2.1).mp h
      have : j = "z" := by simpa using hj
      rw [this] at hsome
      exact absurd hsome (by decide)⟩

/-! ### `Config.get` (src/src/config.js lines 191–253)

`Config.get` reads each layer through `Layer.get` → `JSONStore.get`, applies
template interpolation (`{{other.key}}`, resolved through a fresh top-level
`get`), short-circuits at the first non-object value while scanning layers in
reverse precedence order, merges accumulated plain objects, and falls back to
the (interpolated) default — or `{}` when there is no key and no default.

Layers are modelled namespace-less: a layer is its store's plain data tree.
The recursive interpolation is fuel-indexed (JavaScript itself diverges on
cyclic references). Failure cases are explicit: `interpErr` (a `{{var}}`
reference to an undefined key), `invalidKey` (`splitKey` rejecting an empty
segment), `typeErr` (the JavaScript `TypeError` from traversing a `null` on
the key path in `JSONStore.get`), `fuelErr` (out of fuel), and `unmodeled`
(the `merge` corner that sets object keys on an array, which the plain-value
model does not represent). -/

inductive GErr where
  | interpErr : GErr
  | invalidKey : GErr
  | typeErr : GErr
  | fuelErr : GErr
  | unmodeled : GErr
deriving DecidableEq

/-- Field lookup on a plain object (first binding). -/
def PFields.lookupP : PFields → String → Option PVal
  | .nil, _ => none
  | .cons k v r, p => if k = p then some v else PFields.lookupP r p

/-- Number of elements of a plain array. -/
def PElems.lengthP : PElems → Nat
  | .nil => 0
  | .cons _ r => 1 + PElems.lengthP r

/-- Indexing into a plain array. -/
def PElems.getIdx : PElems → Nat → Option PVal
  | .nil, _ => none
  | .cons v _, 0 => some v
  | .cons _ r, n + 1 => PElems.getIdx r n

/-- A canonical array-index string: digits only, no leading zero except "0". -/
def parseIdx (s : String) : Option Nat :=
  match s.data with
  | [] => none
  | c :: rest =>
    if (c :: rest).all (fun d => 48 ≤ d.toNat ∧ d.toNat ≤ 57) then
      if c = '0' ∧ rest ≠ [] then none
      else some ((c :: rest).foldl (fun acc d => 10 * acc + (d.toNat - 48)) 0)
    else none

/-- `data[prop]` during the `JSONStore.get` walk, on a container. -/
def jsGetProp (v : PVal) (k : String) : Option PVal :=
  match v with
  | .obj fs => fs.lookupP k
  | .arr es =>
    if k = "length" then some (.sv (.numV es.lengthP))
    else match parseIdx k with
      | some i => es.getIdx i
      | none => none
  | .sv _ => none

/-- The final filter of `JSONStore.get`: a non-null, non-array plain object
with zero keys yields `undefined` rather than itself. -/
def storeFin : PVal → Option PVal
  | .obj .nil => none
  | v => some v

/-- The key walk of `JSONStore.get` (stores/json-store.js lines 89–103): stop
with `undefined` as soon as a non-container is about to be indexed — except
`null`, whose `typeof` is `'object'`, so the loop proceeds to index it and
JavaScript throws a `TypeError`. A missing property makes `data` undefined and
ends the loop with `undefined`. -/
def storeWalk : PVal → List String → Except GErr (Option PVal)
  | d, [] => .ok (storeFin d)
  | d, k :: rest =>
    match d with
    | .sv .nullV => .error .typeErr
    | .sv _ => .ok none
    | .obj fs =>
      match PFields.lookupP fs k with
      | none => .ok none
      | some d' => storeWalk d' rest
    | .arr es =>
      match jsGetProp (.arr es) k with
      | none => .ok none
      | some d' => storeWalk d' rest

/-- `JSONStore.get(key)` on the store's data tree. -/
def storeGet (data : PVal) (key : List String) : Except GErr (Option PVal) :=
  storeWalk data key

/-- `Layer.get(key)` for a namespace-less layer: the store lookup, with an
undefined whole-store read replaced by `{}`. -/
def layerGet (data : PVal) (key : List String) : Except GErr (Option PVal) := do
  let v ← storeGet data key
  match key, v with
  | [], none => pure (some (.obj .nil))
  | _, _ => pure v

/-- After `'{{'`, read the key characters up to `'}}'` (the regex
`\{\{([^}]+)\}\}`; the returned key may be empty, which the caller rejects —
`[^}]+` requires at least one character). -/
def scanKey : List Char → Option (List Char × List Char)
  | [] => none
  | c :: cs =>
    if c = '}' then
      match cs with
      | c2 :: tail => if c2 = '}' then some ([], tail) else none
      | [] => none
    else (scanKey cs).map (fun p => (c :: p.1, p.2))

/-- Template segmentation of a string: literal characters (`inl`) and `{{…}}`
interpolation keys (`inr`), scanned left to right; a `'{{'` with no matching
nonempty `[^}]+}}` stays literal. Fuel-indexed so concrete instances reduce. -/
def scanTmplGo : Nat → List Char → List (Sum Char (List Char))
  | 0, _ => []
  | _ + 1, [] => []
  | fuel + 1, c :: rest =>
    if c = '{' ∧ rest.head? = some '{' then
      match scanKey rest.tail with
      | some (k, tail) =>
        if k.isEmpty then .inl c :: scanTmplGo fuel rest
        else .inr k :: scanTmplGo fuel tail
      | none => .inl c :: scanTmplGo fuel rest
    else .inl c :: scanTmplGo fuel rest

/-- Template segments of a string. -/
def scanTmpl (cs : List Char) : List (Sum Char (List Char)) :=
  scanTmplGo (cs.length + 1) cs

mutual
/-- JavaScript `String(value)` for the modelled values (what the `replace`
callback's return value is coerced to). -/
def jsToString : PVal → String
  | .sv (.strV s) => s
  | .sv (.numV n) => natDecimal n
  | .sv (.boolV true) => "true"
  | .sv (.boolV false) => "false"
  | .sv .nullV => "null"
  | .obj _ => "[object Object]"
  | .arr es => ⟨jsToStringElems es⟩

/-- `Array.prototype.toString`: elements joined by `','`, with `null` (and
`undefined`) elements rendered empty. -/
def jsToStringElems : PElems → List Char
  | .nil => []
  | .cons v .nil => (jsElemString v).data
  | .cons v (.cons w r) => (jsElemString v).data ++ ',' :: jsToStringElems (.cons w r)

/-- One array element as rendered inside a join. -/
def jsElemString : PVal → String
  | .sv .nullV => ""
  | v => jsToString v
end

/-- `splitKey` (util.js lines 100–112) on a string key: split on `'.'`,
rejecting empty segments. -/
def splitKeyE (s : String) : Except GErr (List String) :=
  let segs := s.splitOn "."
  if segs.all (fun seg => seg ≠ "") then .ok segs else .error .invalidKey

/-- Render template segments: literals stay; each `{{k}}` resolves `k` through
the supplied top-level getter and splices in the stringified value, failing
with the interpolation error when the key resolves to `undefined`. -/
def renderSegs (g : String → Except GErr (Option PVal)) :
    List (Sum Char (List Char)) → Except GErr (List Char)
  | [] => .ok []
  | .inl c :: rest => do
    let cs ← renderSegs g rest
    pure (c :: cs)
  | .inr k :: rest => do
    let v ← g ⟨k⟩
    match v with
    | none => .error .interpErr
    | some pv => do
      let cs ← renderSegs g rest
      pure ((jsToString pv).data ++ cs)

mutual
/-- The `replace` helper of `Config.get`: strings are interpolated, arrays and
objects are rebuilt with every member interpolated, other values pass
through. -/
def replaceVal (g : String → Except GErr (Option PVal)) : PVal → Except GErr PVal
  | .sv (.strV s) => do
    let cs ← renderSegs g (scanTmpl s.data)
    pure (.sv (.strV ⟨cs⟩))
  | .sv v => .ok (.sv v)
  | .obj fs => do
    let fs2 ← replaceFields g fs
    pure (.obj fs2)
  | .arr es => do
    let es2 ← replaceElems g es
    pure (.arr es2)

/-- `replace` over object entries. -/
def replaceFields (g : String → Except GErr (Option PVal)) :
    PFields → Except GErr PFields
  | .nil => .ok .nil
  | .cons k v r => do
    let v2 ← replaceVal g v
    let r2 ← replaceFields g r
    pure (.cons k v2 r2)

/-- `replace` over array elements. -/
def replaceElems (g : String → Except GErr (Option PVal)) :
    PElems → Except GErr PElems
  | .nil => .ok .nil
  | .cons v r => do
    let v2 ← replaceVal g v
    let r2 ← replaceElems g r
    pure (.cons v2 r2)
end

mutual
/-- Template-freeness: no string anywhere in the value contains a `{{…}}`
segment (so `replace` is the identity on it). -/
def tfVal : PVal → Bool
  | .sv (.strV s) => (scanTmpl s.data).all (fun seg => seg.isLeft)
  | .sv _ => true
  | .obj fs => tfFields fs
  | .arr es => tfElems es

/-- Template-freeness of object entries. -/
def tfFields : PFields → Bool
  | .nil => true
  | .cons _ v r => tfVal v && tfFields r

/-- Template-freeness of array elements. -/
def tfElems : PElems → Bool
  | .nil => true
  | .cons v r => tfVal v && tfElems r
end

/-- `Object.assign`-style update of one object field (in place or appended). -/
def PFields.updP : PFields → String → PVal → PFields
  | .nil, p, v => .cons p v .nil
  | .cons k x r, p, v => if k = p then .cons p v r else .cons k x (PFields.updP r p v)

mutual
/-- One step of the `merge` helper of `Config.get`: merging `src`'s field `k`
(holding `sv`) into `dest`. Recurses when the source value is a non-array
object and the destination field is a truthy object; the case where that
destination field is an *array* (JavaScript would graft object keys onto the
array) is outside the plain-value model and yields `none`. -/
def mergeKey (dest : PVal) (k : String) (sv : PVal) : Option PVal :=
  match dest with
  | .obj dfs =>
    match sv with
    | .obj sfs =>
      match dfs.lookupP k with
      | some (.obj dsub) =>
        match mergeInto (.obj dsub) sfs with
        | some m => some (.obj (dfs.updP k m))
        | none => none
      | some (.arr _) => none
      | _ => some (.obj (dfs.updP k sv))
    | _ => some (.obj (dfs.updP k sv))
  | _ => none

/-- Merge all fields of a source object into a destination, left to right. -/
def mergeInto (dest : PVal) : PFields → Option PVal
  | .nil => some dest
  | .cons k sv rest =>
    match mergeKey dest k sv with
    | some dest2 => mergeInto dest2 rest
    | none => none
end

/-- `merge(src, dest)` of `Config.get`, where `src` is one accumulated object. -/
def mergePV (src dest : PVal) : Option PVal :=
  match src with
  | .obj sfs => mergeInto dest sfs
  | _ => none

/-- `result = {}; for (const obj of objects) merge(obj, result)`. -/
def mergeAll (objects : List PVal) : Option PVal :=
  objects.foldl (fun acc o => acc.bind (fun a => mergePV o a)) (some (.obj .nil))

/-- Per-layer lookup results, in the order the layers are given. -/
def layerResults (key : List String) : List PVal → Except GErr (List (Option PVal))
  | [] => .ok []
  | L :: rest => do
    let v ← layerGet L key
    let vs ← layerResults key rest
    pure (v :: vs)

/-- The scan loop of `Config.get` over the (already reversed) layers: resolve
and interpolate each layer's value; return the first non-object (`null`,
scalar or array) immediately; `unshift` plain objects onto the accumulator. -/
def scanLayers (g : String → Except GErr (Option PVal)) (key : List String) :
    List PVal → List PVal → Except GErr (Sum PVal (List PVal))
  | [], acc => .ok (.inr acc)
  | L :: rest, acc => do
    let raw ← layerGet L key
    match raw with
    | none => scanLayers g key rest acc
    | some v => do
      let v2 ← replaceVal g v
      match v2 with
      | .obj fs => scanLayers g key rest (.obj fs :: acc)
      | w => .ok (.inl w)

/-- `Config.get(key, defaultValue)` with no explicit layer id, fuel-indexed for
the recursive interpolation lookups (`this.get(k)` inside `replace`). -/
def configGet : Nat → List PVal → List String → Option PVal → Except GErr (Option PVal)
  | 0, _, _, _ => .error .fuelErr
  | fuel + 1, layers, key, dflt => do
    let g : String → Except GErr (Option PVal) := fun k => do
      let segs ← splitKeyE k
      configGet fuel layers segs none
    match ← scanLayers g key layers.reverse [] with
    | .inl v => pure (some v)
    | .inr objects =>
      match objects with
      | [] =>
        if dflt.isSome ∨ key ≠ [] then
          match dflt with
          | none => pure none
          | some d => do
            let d2 ← replaceVal g d
            pure (some d2)
        else pure (some (.obj .nil))
      | o :: os =>
        match mergeAll (o :: os) with
        | some r => pure (some r)
        | none => .error .unmodeled

/-- Claim-side outcome of the reverse-precedence scan: either the first
non-object value found short-circuits, or the plain objects found are
accumulated (here in scan order, i.e. highest precedence first). -/
inductive ScanOut where
  | shortCircuit : PVal → ScanOut
  | objects : List PVal → ScanOut

/-- Claim-side scan over the per-layer values in reverse precedence order. -/
def specScan : List (Option PVal) → ScanOut
  | [] => .objects []
  | none :: rest => specScan rest
  | some v :: rest =>
    match v with
    | .obj fs =>
      match specScan rest with
      | .shortCircuit w => .shortCircuit w
      | .objects os => .objects (PVal.obj fs :: os)
    | w => .shortCircuit w

/-! ### Template-free values pass through `replace` unchanged -/

theorem renderSegs_all_left (g : String → Except GErr (Option PVal)) (fuel : Nat) :
    ∀ cs : List Char, cs.length < fuel →
    (scanTmplGo fuel cs).all Sum.isLeft = true →
    renderSegs g (scanTmplGo fuel cs) = .ok cs := by
  induction fuel with
  | zero =>
    intro cs h
    exact absurd h (by omega)
  | succ fuel ih =>
    intro cs hlen hall
    match cs with
    | [] => rfl
    | c :: rest =>
      have hrest : rest.length < fuel := by
        simp only [List.length_cons] at hlen
        omega
      simp only [scanTmplGo] at hall ⊢
      by_cases hc : c = '{' ∧ rest.head? = some '{'
      · rw [if_pos hc] at hall ⊢
        rcases hk : scanKey rest.tail with _ | ⟨k, tail⟩
        · simp only [hk] at hall ⊢
          simp only [List.all_cons, Bool.and_eq_true] at hall
          simp [renderSegs, ih rest hrest hall.2]
        · simp only [hk] at hall ⊢
          by_cases hkE : k.isEmpty
          · rw [if_pos hkE] at hall ⊢
            simp only [List.all_cons, Bool.and_eq_true] at hall
            simp [renderSegs, ih rest hrest hall.2]
          · rw [if_neg hkE] at hall
            simp at hall
      · rw [if_neg hc] at hall ⊢
        simp only [List.all_cons, Bool.and_eq_true] at hall
        simp [renderSegs, ih rest hrest hall.2]

mutual
theorem replaceVal_tf (g : String → Except GErr (Option PVal)) :
    ∀ v : PVal, tfVal v = true → replaceVal g v = .ok v
  | .sv (.strV s), h => by
    have hr : renderSegs g (scanTmpl s.data) = .ok s.data :=
      renderSegs_all_left g (s.data.length + 1) s.data (by omega)
        (by simpa [tfVal, scanTmpl] using h)
    simp only [replaceVal, scanTmpl] at hr ⊢
    rw [hr]
    rfl
  | .sv .nullV, _ => rfl
  | .sv (.boolV b), _ => rfl
  | .sv (.numV n), _ => rfl
  | .obj fs, h => by
    simp only [replaceVal]
    rw [replaceFields_tf g fs (by simpa [tfVal] using h)]
    rfl
  | .arr es, h => by
    simp only [replaceVal]
    rw [replaceElems_tf g es (by simpa [tfVal] using h)]
    rfl

theorem replaceFields_tf (g : String → Except GErr (Option PVal)) :
    ∀ fs : PFields, tfFields fs = true → replaceFields g fs = .ok fs
  | .nil, _ => rfl
  | .cons k v r, h => by
    have h' := h
    simp only [tfFields, Bool.and_eq_true] at h'
    simp only [replaceFields]
    rw [replaceVal_tf g v h'.1, replaceFields_tf g r h'.2]
    rfl

theorem replaceElems_tf (g : String → Except GErr (Option PVal)) :
    ∀ es : PElems, tfElems es = true → replaceElems g es = .ok es
  | .nil, _ => rfl
  | .cons v r, h => by
    have h' := h
    simp only [tfElems, Bool.and_eq_true] at h'
    simp only [replaceElems]
    rw [replaceVal_tf g v h'.1, replaceElems_tf g r h'.2]
    rfl
end

/-! ### Template-freeness propagates through store lookups -/

theorem tfFields_lookup : ∀ (fs : PFields) (k : String) (v : PVal),
    tfFields fs = true → fs.lookupP k = some v → tfVal v = true
  | .nil, k, v, _, hl => by simp [PFields.lookupP] at hl
  | .cons k' x r, k, v, htf, hl => by
    simp only [tfFields, Bool.and_eq_true] at htf
    simp only [PFields.lookupP] at hl
    split at hl
    · cases hl
      exact htf.1
    · exact tfFields_lookup r k v htf.2 hl

theorem tfElems_getIdx : ∀ (es : PElems) (i : Nat) (v : PVal),
    tfElems es = true → es.getIdx i = some v → tfVal v = true
  | .nil, i, v, _, hl => by simp [PElems.getIdx] at hl
  | .cons x r, 0, v, htf, hl => by
    simp only [tfElems, Bool.and_eq_true] at htf
    simp only [PElems.getIdx] at hl
    cases hl
    exact htf.1
  | .cons x r, i + 1, v, htf, hl => by
    simp only [tfElems, Bool.and_eq_true] at htf
    simp only [PElems.getIdx] at hl
    exact tfElems_getIdx r i v htf.2 hl

theorem jsGetProp_tf (d : PVal) (k : String) (v : PVal)
    (htf : tfVal d = true) (h : jsGetProp d k = some v) : tfVal v = true := by
  match d with
  | .sv s => simp [jsGetProp] at h
  | .obj fs => exact tfFields_lookup fs k v (by simpa [tfVal] using htf) h
  | .arr es =>
    simp only [jsGetProp] at h
    split at h
    · cases h
      rfl
    · split at h
      · exact tfElems_getIdx es _ v (by simpa [tfVal] using htf) h
      · cases h

theorem storeWalk_tf : ∀ (key : List String) (d v : PVal),
    tfVal d = true → storeWalk d key = .ok (some v) → tfVal v = true
  | [], d, v, htf, h => by
    match d with
    | .obj .nil => simp [storeWalk, storeFin] at h
    | .obj (.cons k x r) =>
      simp only [storeWalk, storeFin] at h
      cases h
      exact htf
    | .sv s =>
      have : storeFin (.sv s) = some (.sv s) := by cases s <;> rfl
      simp only [storeWalk, this] at h
      cases h
      exact htf
    | .arr es =>
      simp only [storeWalk, storeFin] at h
      cases h
      exact htf
  | k :: rest, d, v, htf, h => by
    match d with
    | .sv .nullV => simp [storeWalk] at h
    | .sv (.boolV b) => simp [storeWalk] at h
    | .sv (.numV n) => simp [storeWalk] at h
    | .sv (.strV s) => simp [storeWalk] at h
    | .obj fs =>
      simp only [storeWalk] at h
      split at h
      · cases h
      · rename_i d' hd'
        exact storeWalk_tf rest d' v (tfFields_lookup fs k d' (by simpa [tfVal] using htf) hd') h
    | .arr es =>
      simp only [storeWalk] at h
      split at h
      · cases h
      · rename_i d' hd'
        exact storeWalk_tf rest d' v (jsGetProp_tf (.arr es) k d' htf hd') h

theorem layerGet_tf (L : PVal) (key : List String) (v : PVal)
    (htf : tfVal L = true) (h : layerGet L key = .ok (some v)) : tfVal v = true := by
  simp only [layerGet, storeGet] at h
  rcases hw : storeWalk L key with e | w
  · rw [hw] at h
    cases h
  · rw [hw] at h
    match key, w with
    | [], none =>
      simp only [bind, Except.bind] at h
      cases h
      rfl
    | [], some u =>
      simp only [bind, Except.bind] at h
      cases h
      exact storeWalk_tf [] L v htf hw
    | k :: rest, none =>
      simp only [bind, Except.bind] at h
      cases h
    | k :: rest, some u =>
      simp only [bind, Except.bind] at h
      cases h
      exact storeWalk_tf (k :: rest) L v htf hw

theorem exc_bind_ok {α β : Type} (x : α) (f : α → Except GErr β) :
    (Except.ok x >>= f) = f x := rfl

theorem exc_pure {α : Type} (x : α) : (pure x : Except GErr α) = .ok x := rfl

theorem exc_bind_err {α β : Type} (e : GErr) (f : α → Except GErr β) :
    ((Except.error e : Except GErr α) >>= f) = .error e := rfl

theorem scanLayers_spec (g : String → Except GErr (Option PVal)) (key : List String) :
    ∀ (Ls : List PVal) (rs : List (Option PVal)) (acc : List PVal),
    layerResults key Ls = .ok rs →
    (∀ L ∈ Ls, tfVal L = true) →
    (∀ v, specScan rs = .shortCircuit v → scanLayers g key Ls acc = .ok (.inl v)) ∧
    (∀ os, specScan rs = .objects os →
      scanLayers g key Ls acc = .ok (.inr (os.reverse ++ acc))) := by
  intro Ls
  induction Ls with
  | nil =>
    intro rs acc hlr htf
    simp only [layerResults] at hlr
    have hrs : rs = [] := by
      cases hlr
      rfl
    subst hrs
    constructor
    · intro v hspec
      simp [specScan] at hspec
    · intro os hspec
      simp only [specScan] at hspec
      cases hspec
      simp [scanLayers]
  | cons L rest ih =>
    intro rs acc hlr htf
    rcases hv : layerGet L key with e | v
    · simp only [layerResults, hv, exc_bind_err] at hlr
      cases hlr
    rcases hvs : layerResults key rest with e | vs
    · simp only [layerResults, hv, exc_bind_ok, hvs, exc_bind_err] at hlr
      cases hlr
    simp only [layerResults, hv, exc_bind_ok, hvs, exc_bind_ok] at hlr
    have hrs : rs = v :: vs := by
      cases hlr
      rfl
    subst hrs
    have htfRest : ∀ L' ∈ rest, tfVal L' = true :=
      fun L' hL' => htf L' (List.mem_cons_of_mem _ hL')
    match v with
    | none =>
      have hih := ih vs acc hvs htfRest
      constructor
      · intro w hspec
        simp only [specScan] at hspec
        simp only [scanLayers, hv, exc_bind_ok]
        exact hih.1 w hspec
      · intro os hspec
        simp only [specScan] at hspec
        simp only [scanLayers, hv, exc_bind_ok]
        exact hih.2 os hspec
    | some w =>
      have htfw : tfVal w = true := layerGet_tf L key w (htf L (List.mem_cons_self _ _)) hv
      have hrep := replaceVal_tf g w htfw
      match w with
      | .obj fs =>
        have hih := ih vs (.obj fs :: acc) hvs htfRest
        constructor
        · intro u hspec
          simp only [specScan] at hspec
          rcases hsv : specScan vs with u' | os'
          · rw [hsv] at hspec
            cases hspec
            simp only [scanLayers, hv, exc_bind_ok, hrep, exc_bind_ok]
            exact hih.1 _ hsv
          · rw [hsv] at hspec
            cases hspec
        · intro os hspec
          simp only [specScan] at hspec
          rcases hsv : specScan vs with u' | os'
          · rw [hsv] at hspec
            cases hspec
          · rw [hsv] at hspec
            cases hspec
            simp only [scanLayers, hv, exc_bind_ok, hrep, exc_bind_ok]
            have := hih.2 os' hsv
            rw [this]
            simp [List.append_assoc]
      | .sv s =>
        constructor
        · intro u hspec
          simp only [specScan] at hspec
          cases hspec
          simp only [scanLayers, hv, exc_bind_ok, hrep, exc_bind_ok]
        · intro os hspec
          simp only [specScan] at hspec
          cases hspec
      | .arr es =>
        constructor
        · intro u hspec
          simp only [specScan] at hspec
          cases hspec
          simp only [scanLayers, hv, exc_bind_ok, hrep, exc_bind_ok]
        · intro os hspec
          simp only [specScan] at hspec
          cases hspec

/-! ### Claim C4 — the layer scan, merge, and default logic of `Config.get` -/

/-- Claim C4: with no explicit layer id and template-free data, `Config.get`
scans the per-layer values in reverse precedence order; the first non-object
value found (`null`, scalars and arrays included) is returned as is; otherwise
the accumulated plain objects are deep-merged with higher-precedence keys
winning (the scan collects highest-precedence first; the merge folds them
lowest-precedence first, later merges overwriting); and when no layer yields a
value, the (interpolated) default is returned — except that with no key and no
default, the result is the empty object, not `undefined`. -/
theorem C4_get_scan_merge (fuel : Nat) (layers : List PVal) (key : List String)
    (dflt : Option PVal) (rs : List (Option PVal))
    (hrs : layerResults key layers.reverse = .ok rs)
    (htfL : ∀ L ∈ layers, tfVal L = true)
    (htfD : ∀ d, dflt = some d → tfVal d = true) :
    (∀ v, specScan rs = .shortCircuit v →
      configGet (fuel + 1) layers key dflt = .ok (some v)) ∧
    (∀ o os m, specScan rs = .objects (o :: os) →
      mergeAll ((o :: os).reverse) = some m →
      configGet (fuel + 1) layers key dflt = .ok (some m)) ∧
    (specScan rs = .objects [] →
      configGet (fuel + 1) layers key dflt =
        .ok (if dflt.isSome ∨ key ≠ [] then dflt else some (.obj .nil))) := by
  have htfRev : ∀ L ∈ layers.reverse, tfVal L = true :=
    fun L hL => htfL L (List.mem_reverse.mp hL)
  have hscan := scanLayers_spec
    (fun k => do
      let segs ← splitKeyE k
      configGet fuel layers segs none) key layers.reverse rs [] hrs htfRev
  refine ⟨?_, ?_, ?_⟩
  · intro v hspec
    simp only [configGet]
    rw [hscan.1 v hspec]
    rfl
  · intro o os m hspec hmerge
    simp only [configGet]
    rw [hscan.2 (o :: os) hspec]
    rcases hrev : (o :: os).reverse with _ | ⟨y, ys⟩
    · exact absurd (List.reverse_eq_nil_iff.mp hrev) (by simp)
    · rw [hrev] at hmerge
      simp only [List.append_nil, exc_bind_ok, hmerge]
      rfl
  · intro hspec
    simp only [configGet]
    rw [hscan.2 [] hspec]
    rcases hD : dflt with _ | d
    · by_cases hk : key = []
      · subst hk
        simp [exc_bind_ok, exc_pure]
      · simp [exc_bind_ok, exc_pure, hk]
    · simp [exc_bind_ok, exc_pure, replaceVal_tf _ d (htfD d hD)]

/-- A base layer `{ a: { x: 1 } }` for the C4 witness. -/
def c4Base : PVal := .obj (.cons "a" (.obj (.cons "x" (numPV 1) .nil)) .nil)

/-- A higher-precedence layer `{ a: { y: 2 } }` for the C4 witness. -/
def c4L1 : PVal := .obj (.cons "a" (.obj (.cons "y" (numPV 2) .nil)) .nil)

/-- Witness for C4: `get('a')` over `Base = { a: { x: 1 } }` and a higher
layer `{ a: { y: 2 } }` merges the object values into `{ x: 1, y: 2 }`, and
`get()` with no key, no default and no layers yields `{}`. -/
theorem C4_get_scan_merge_witness :
    layerResults ["a"] ([c4Base, c4L1].reverse) =
      .ok [some (.obj (.cons "y" (numPV 2) .nil)), some (.obj (.cons "x" (numPV 1) .nil))] ∧
    (∀ L ∈ [c4Base, c4L1], tfVal L = true) ∧
    configGet 1 [c4Base, c4L1] ["a"] none =
      .ok (some (.obj (.cons "x" (numPV 1) (.cons "y" (numPV 2) .nil)))) ∧
    configGet 1 ([] : List PVal) [] none = .ok (some (.obj .nil)) :=
  ⟨rfl, by decide,
    (C4_get_scan_merge 0 [c4Base, c4L1] ["a"] none
        [some (.obj (.cons "y" (numPV 2) .nil)), some (.obj (.cons "x" (numPV 1) .nil))]
        rfl (by decide) (fun d h => nomatch h)).2.1
      (.obj (.cons "y" (numPV 2) .nil)) [.obj (.cons "x" (numPV 1) .nil)]
      (.obj (.cons "x" (numPV 1) (.cons "y" (numPV 2) .nil))) rfl rfl,
    (C4_get_scan_merge 0 [] [] none [] rfl (by decide) (fun d h => nomatch h)).2.2 rfl⟩

end ConfigKit
